import Mathlib

/-!
Verification of `common/symbolic/decompose.cc`: a shallow embedding of the
expression-decomposition routines (affine/linear extraction, quadratic-form
extraction, L2-norm recognition, and lumped-parameter factorization) together
with proofs of the specified properties.

The symbolic Expression algebra itself is an external collaborator of the
code under verification; it is modelled here from the spec (an immutable tree
tagged with an operator kind; additions store `c₀ + Σᵢ cᵢ·eᵢ`, multiplications
store `c·∏ᵢ baseᵢ^expᵢ`; a total order over trees supports ordered-map keys).
Numeric constants of the expression algebra are modelled as integers: an
exact subset of the source's double-precision constants that covers every
claim (floating-point rounding is out of scope for this development); the
coefficient arithmetic of the polynomial components is modelled over ℚ.
-/

namespace DrakeDecompose

/-- Modelled from the spec: the operator kinds that the lumped-parameter
visitor treats uniformly as opaque non-polynomial leaves (division, absolute
value, transcendental, trigonometric, hyperbolic, min/max, ceiling/floor,
conditional, uninterpreted function), plus square root which is also the kind
tested by the L2-norm recognizer. -/
inductive NPKind : Type
  | div
  | abs
  | log
  | exp
  | sqrt
  | sin
  | cos
  | tan
  | asin
  | acos
  | atan
  | atan2
  | sinh
  | cosh
  | tanh
  | min
  | max
  | ceil
  | floor
  | ifThenElse
  | ufun
  deriving DecidableEq, Repr

mutual
/-- Modelled from the spec: a symbolic expression tree.  `add c ts` is the
n-ary addition node `c + Σᵢ cᵢ·eᵢ` (term/coefficient pairs), `mul c fs` is the
n-ary multiplication node `c · ∏ᵢ baseᵢ^expᵢ` (base/exponent pairs), matching
the maps exposed by `get_expr_to_coeff_map_in_addition` and
`get_base_to_exponent_map_in_multiplication`.  Variables are identified by a
numeric id. -/
inductive Expr : Type
  | const : ℤ → Expr
  | var : ℕ → Expr
  | add : ℤ → ETerms → Expr
  | mul : ℤ → EFactors → Expr
  | pow : Expr → Expr → Expr
  | np : NPKind → EList → Expr
  deriving DecidableEq, Repr

/-- Modelled from the spec: the term/coefficient pairs of an addition node. -/
inductive ETerms : Type
  | nil : ETerms
  | cons : Expr → ℤ → ETerms → ETerms
  deriving DecidableEq, Repr

/-- Modelled from the spec: the base/exponent pairs of a multiplication
node. -/
inductive EFactors : Type
  | nil : EFactors
  | cons : Expr → Expr → EFactors → EFactors
  deriving DecidableEq, Repr

/-- Modelled from the spec: the operand list of an opaque operator node. -/
inductive EList : Type
  | nil : EList
  | cons : Expr → EList → EList
  deriving DecidableEq, Repr
end

mutual
/-- Modelled from the spec: the set of free variables of an expression
(`Expression::GetVariables`). -/
def Expr.vars : Expr → Finset ℕ
  | .const _ => ∅
  | .var v => {v}
  | .add _ ts => ts.vars
  | .mul _ fs => fs.vars
  | .pow b e => b.vars ∪ e.vars
  | .np _ as => as.vars

/-- Free variables of the terms of an addition node. -/
def ETerms.vars : ETerms → Finset ℕ
  | .nil => ∅
  | .cons e _ r => e.vars ∪ r.vars

/-- Free variables of the factors of a multiplication node. -/
def EFactors.vars : EFactors → Finset ℕ
  | .nil => ∅
  | .cons b e r => b.vars ∪ e.vars ∪ r.vars

/-- Free variables of an operand list. -/
def EList.vars : EList → Finset ℕ
  | .nil => ∅
  | .cons e r => e.vars ∪ r.vars
end

/-- Injective code of an integer into the naturals, used to build the total
order over expression trees. -/
def encInt (n : ℤ) : ℕ := if 0 ≤ n then 2 * n.toNat else 2 * (-n).toNat - 1

/-- Injective code of a rational constant. -/
def encRat (q : ℚ) : ℕ := Nat.pair (encInt q.num) q.den -- retained for the polynomial components

/-- Numeric tag of an opaque operator kind. -/
def encNP : NPKind → ℕ
  | .div => 0
  | .abs => 1
  | .log => 2
  | .exp => 3
  | .sqrt => 4
  | .sin => 5
  | .cos => 6
  | .tan => 7
  | .asin => 8
  | .acos => 9
  | .atan => 10
  | .atan2 => 11
  | .sinh => 12
  | .cosh => 13
  | .tanh => 14
  | .min => 15
  | .max => 16
  | .ceil => 17
  | .floor => 18
  | .ifThenElse => 19
  | .ufun => 20

mutual
/-- Modelled from the spec: a total order over expression trees is required so
that expressions can serve as ordered-map keys ("structural identity is the
dedup key, via a total order over expressions"); it is realized here by a
structural numeric code compared on ℕ. -/
def Expr.enc : Expr → ℕ
  | .const q => Nat.pair 0 (encInt q)
  | .var v => Nat.pair 1 v
  | .add c ts => Nat.pair 2 (Nat.pair (encInt c) ts.enc)
  | .mul c fs => Nat.pair 3 (Nat.pair (encInt c) fs.enc)
  | .pow b e => Nat.pair 4 (Nat.pair b.enc e.enc)
  | .np k as => Nat.pair 5 (Nat.pair (encNP k) as.enc)

/-- Structural code of an addition node's term list. -/
def ETerms.enc : ETerms → ℕ
  | .nil => 0
  | .cons e q r => Nat.pair (Nat.pair e.enc (encInt q)) r.enc + 1

/-- Structural code of a multiplication node's factor list. -/
def EFactors.enc : EFactors → ℕ
  | .nil => 0
  | .cons b e r => Nat.pair (Nat.pair b.enc e.enc) r.enc + 1

/-- Structural code of an operand list. -/
def EList.enc : EList → ℕ
  | .nil => 0
  | .cons e r => Nat.pair e.enc r.enc + 1
end

/-- Modelled from the spec: structural zero test (`is_zero`), used to detect
zero constant terms "structurally (not by floating-point comparison)". -/
def Expr.isZero (e : Expr) : Bool := e = .const 0

/-- Modelled from the spec: structural one test (`is_one`). -/
def Expr.isOne (e : Expr) : Bool := e = .const 1

/-- Modelled from the spec: `is_constant`, true when the node is a numeric
constant leaf. -/
def Expr.isConst : Expr → Bool
  | .const _ => true
  | _ => false

/-- Concatenation of term lists. -/
def ETerms.append : ETerms → ETerms → ETerms
  | .nil, us => us
  | .cons e q r, us => .cons e q (r.append us)

/-- Concatenation of factor lists. -/
def EFactors.append : EFactors → EFactors → EFactors
  | .nil, gs => gs
  | .cons b e r, gs => .cons b e (r.append gs)

/-- Modelled from the spec: simplifying expression addition, as performed by
the algebra's `operator+` (constants fold, a zero operand disappears, addition
nodes merge their constants and concatenate their term lists, any other
operand enters a term list with coefficient 1). -/
def Expr.sadd : Expr → Expr → Expr
  | .const p, .const q => .const (p + q)
  | .const p, .add c ts => .add (p + c) ts
  | .add c ts, .const p => .add (c + p) ts
  | .add c ts, .add d us => .add (c + d) (ts.append us)
  | .const p, b => if p = 0 then b else .add p (.cons b 1 .nil)
  | a, .const q => if q = 0 then a else .add q (.cons a 1 .nil)
  | .add c ts, b => .add c (ts.append (.cons b 1 .nil))
  | a, .add c ts => .add c (.cons a 1 ts)
  | a, b => .add 0 (.cons a 1 (.cons b 1 .nil))

/-- Scale the coefficients of a term list by a nonzero constant. -/
def ETerms.scale (k : ℤ) : ETerms → ETerms
  | .nil => .nil
  | .cons e q r => .cons e (k * q) (r.scale k)

/-- Modelled from the spec: simplifying multiplication of an expression by a
numeric constant (`double * Expression`): zero annihilates, one is the
identity, constants fold, an addition node scales its constant and term
coefficients, a multiplication node folds the constant. -/
def Expr.qmul (k : ℤ) (e : Expr) : Expr :=
  if k = 0 then .const 0
  else if k = 1 then e
  else
    match e with
    | .const q => .const (k * q)
    | .add c ts => .add (k * c) (ts.scale k)
    | .mul c fs => .mul (k * c) fs
    | e => .mul k (.cons e (.const 1) .nil)

/-- Modelled from the spec: simplifying expression multiplication, as
performed by the algebra's `operator*` (a structural zero annihilates, a one
is the identity, constants fold or are folded into the other operand,
multiplication nodes merge their constants and concatenate their factor
lists, any other operand enters a factor list with exponent 1). -/
def Expr.smul : Expr → Expr → Expr
  | .const p, .const q => .const (p * q)
  | .const p, b => Expr.qmul p b
  | a, .const q => Expr.qmul q a
  | .mul c fs, .mul d gs => .mul (c * d) (fs.append gs)
  | .mul c fs, b => .mul c (fs.append (.cons b (.const 1) .nil))
  | a, .mul c fs => .mul c (.cons a (.const 1) fs)
  | a, b => .mul 1 (.cons a (.const 1) (.cons b (.const 1) .nil))

section Eval

-- `I` interprets the opaque operator kinds (value of an opaque node given the
-- values of its operands); `pw` interprets the power operator; `env` assigns
-- values to variables.  `I` and `pw` are universally quantified in every
-- semantic theorem, since the code treats these operators as black boxes.
variable (I : NPKind → List ℤ → ℤ)
variable (pw : ℤ → ℤ → ℤ)
variable (env : ℕ → ℤ)

mutual
/-- Evaluation semantics of an expression under an interpretation of the
opaque operators, an interpretation of powers, and a variable assignment. -/
def Expr.eval : Expr → ℤ
  | .const q => q
  | .var v => env v
  | .add c ts => c + ts.evalSum
  | .mul c fs => c * fs.evalProd
  | .pow b e => pw (b.eval) (e.eval)
  | .np k as => I k as.evalList

/-- Value of the term list of an addition node: `Σᵢ cᵢ·eᵢ`. -/
def ETerms.evalSum : ETerms → ℤ
  | .nil => 0
  | .cons e q r => q * e.eval + r.evalSum

/-- Value of the factor list of a multiplication node: `∏ᵢ baseᵢ^expᵢ`, where
an exponent that is the literal constant 1 denotes the base itself. -/
def EFactors.evalProd : EFactors → ℤ
  | .nil => 1
  | .cons b e r => (if e = .const 1 then b.eval else pw (b.eval) (e.eval)) * r.evalProd

/-- Values of an operand list. -/
def EList.evalList : EList → List ℤ
  | .nil => []
  | .cons e r => e.eval :: r.evalList
end

theorem ETerms.evalSum_append :
    ∀ ts us : ETerms,
      (ts.append us).evalSum I pw env = ts.evalSum I pw env + us.evalSum I pw env
  | .nil, us => by simp [ETerms.append, ETerms.evalSum]
  | .cons e q r, us => by
    simp [ETerms.append, ETerms.evalSum, ETerms.evalSum_append r us]; ring

theorem EFactors.evalProd_append :
    ∀ fs gs : EFactors,
      (fs.append gs).evalProd I pw env = fs.evalProd I pw env * gs.evalProd I pw env
  | .nil, gs => by simp [EFactors.append, EFactors.evalProd]
  | .cons b e r, gs => by
    simp [EFactors.append, EFactors.evalProd, EFactors.evalProd_append r gs]; ring

theorem Expr.eval_sadd (a b : Expr) :
    (a.sadd b).eval I pw env = a.eval I pw env + b.eval I pw env := by
  cases a <;> cases b <;>
    simp only [Expr.sadd] <;>
    (try split) <;>
    simp_all [Expr.eval, ETerms.evalSum, ETerms.evalSum_append] <;>
    ring

theorem ETerms.evalSum_scale (k : ℤ) :
    ∀ ts : ETerms, (ts.scale k).evalSum I pw env = k * ts.evalSum I pw env
  | .nil => by simp [ETerms.scale, ETerms.evalSum]
  | .cons e q r => by
    simp [ETerms.scale, ETerms.evalSum, ETerms.evalSum_scale k r]; ring

theorem Expr.eval_qmul (k : ℤ) (e : Expr) :
    (Expr.qmul k e).eval I pw env = k * e.eval I pw env := by
  unfold Expr.qmul
  split
  · simp_all [Expr.eval]
  · split
    · simp_all
    · cases e <;>
        simp [Expr.eval, ETerms.evalSum_scale, EFactors.evalProd] <;> ring

theorem Expr.eval_smul (a b : Expr) :
    (a.smul b).eval I pw env = a.eval I pw env * b.eval I pw env := by
  cases a <;> cases b <;>
    simp [Expr.smul, Expr.eval, Expr.eval_qmul, EFactors.evalProd,
      EFactors.evalProd_append] <;> ring

end Eval

mutual
/-- Distributing multiplication with a fixed non-addition left operand `a`:
an addition right operand has the product pushed through its terms, any other
right operand is combined by the simplifying multiplication. -/
def Expr.dmulNA (a : Expr) : Expr → Expr
  | .add c ts => Expr.sadd (Expr.qmul c a) (ETerms.dmulNAT a ts)
  | b => Expr.smul a b

/-- Distribute the fixed non-addition operand `a` over a term list. -/
def ETerms.dmulNAT (a : Expr) : ETerms → Expr
  | .nil => .const 0
  | .cons e q r => Expr.sadd (Expr.qmul q (Expr.dmulNA a e)) (ETerms.dmulNAT a r)
end

mutual
/-- Modelled from the spec: distributing multiplication, the work-horse of the
expansion pass ("distribute products over sums"): whenever either operand is
an addition node the product is pushed through its terms, otherwise the
simplifying multiplication applies. -/
def Expr.dmul : Expr → Expr → Expr
  | .add c ts, b => Expr.sadd (Expr.qmul c b) (ETerms.dmulL ts b)
  | a, b => Expr.dmulNA a b

/-- Distribute a product over the terms of a left addition node. -/
def ETerms.dmulL : ETerms → Expr → Expr
  | .nil, _ => .const 0
  | .cons e q r, b => Expr.sadd (Expr.qmul q (Expr.dmul e b)) (ETerms.dmulL r b)
end

section EvalDmul

variable (I : NPKind → List ℤ → ℤ) (pw : ℤ → ℤ → ℤ) (env : ℕ → ℤ)

mutual
theorem Expr.eval_dmulNA :
    ∀ a b : Expr, (Expr.dmulNA a b).eval I pw env = a.eval I pw env * b.eval I pw env
  | a, .add c ts => by
    simp only [Expr.dmulNA]
    rw [Expr.eval_sadd, Expr.eval_qmul, ETerms.eval_dmulNAT a ts]
    simp [Expr.eval]; ring
  | a, .const q => by simp only [Expr.dmulNA]; exact Expr.eval_smul I pw env _ _
  | a, .var v => by simp only [Expr.dmulNA]; exact Expr.eval_smul I pw env _ _
  | a, .mul c fs => by simp only [Expr.dmulNA]; exact Expr.eval_smul I pw env _ _
  | a, .pow x y => by simp only [Expr.dmulNA]; exact Expr.eval_smul I pw env _ _
  | a, .np k as => by simp only [Expr.dmulNA]; exact Expr.eval_smul I pw env _ _

theorem ETerms.eval_dmulNAT :
    ∀ (a : Expr) (ts : ETerms),
      (ETerms.dmulNAT a ts).eval I pw env = a.eval I pw env * ts.evalSum I pw env
  | a, .nil => by simp only [ETerms.dmulNAT]; simp [Expr.eval, ETerms.evalSum]
  | a, .cons e q r => by
    simp only [ETerms.dmulNAT]
    rw [Expr.eval_sadd, Expr.eval_qmul, Expr.eval_dmulNA a e, ETerms.eval_dmulNAT a r]
    simp [ETerms.evalSum]; ring
end

mutual
theorem Expr.eval_dmul :
    ∀ a b : Expr, (a.dmul b).eval I pw env = a.eval I pw env * b.eval I pw env
  | .add c ts, b => by
    simp only [Expr.dmul]
    rw [Expr.eval_sadd, Expr.eval_qmul, ETerms.eval_dmulL ts b]
    simp [Expr.eval]; ring
  | .const q, b => by simp only [Expr.dmul]; exact Expr.eval_dmulNA I pw env _ _
  | .var v, b => by simp only [Expr.dmul]; exact Expr.eval_dmulNA I pw env _ _
  | .mul c fs, b => by simp only [Expr.dmul]; exact Expr.eval_dmulNA I pw env _ _
  | .pow x y, b => by simp only [Expr.dmul]; exact Expr.eval_dmulNA I pw env _ _
  | .np k as, b => by simp only [Expr.dmul]; exact Expr.eval_dmulNA I pw env _ _

theorem ETerms.eval_dmulL :
    ∀ (ts : ETerms) (b : Expr),
      (ETerms.dmulL ts b).eval I pw env = ts.evalSum I pw env * b.eval I pw env
  | .nil, b => by simp only [ETerms.dmulL]; simp [Expr.eval, ETerms.evalSum]
  | .cons e q r, b => by
    simp only [ETerms.dmulL]
    rw [Expr.eval_sadd, Expr.eval_qmul, Expr.eval_dmul e b, ETerms.eval_dmulL r b]
    simp [ETerms.evalSum]; ring
end

end EvalDmul

mutual
/-- Modelled from the spec: the algebra's expansion pass (`Expression::Expand`)
run once up-front by the lumped-parameter decomposition: it distributes
products over sums and normalizes through the simplifying constructors.
Power nodes and opaque operator nodes keep their shape with expanded
children. -/
def Expr.Expand : Expr → Expr
  | .const c => .const c
  | .var v => .var v
  | .add c ts => Expr.sadd (.const c) ts.expandSum
  | .mul c fs => fs.expandProd (.const c)
  | .pow b e => .pow b.Expand e.Expand
  | .np k as => .np k as.expandList

/-- Expansion of the terms of an addition node into a sum. -/
def ETerms.expandSum : ETerms → Expr
  | .nil => .const 0
  | .cons e q r => Expr.sadd (Expr.qmul q e.Expand) r.expandSum

/-- Expansion of the factors of a multiplication node into a distributed
product accumulated onto `acc`; a factor with the literal exponent 1 is the
expanded base itself, any other factor is an expanded power node. -/
def EFactors.expandProd : EFactors → Expr → Expr
  | .nil, acc => acc
  | .cons b ex r, acc =>
      r.expandProd (Expr.dmul acc (if ex = .const 1 then b.Expand else .pow b.Expand ex.Expand))

/-- Expansion of the operands of an opaque operator node. -/
def EList.expandList : EList → EList
  | .nil => .nil
  | .cons e r => .cons e.Expand r.expandList
end

section EvalExpand

variable (I : NPKind → List ℤ → ℤ) (pw : ℤ → ℤ → ℤ) (env : ℕ → ℤ)

mutual
theorem Expr.eval_Expand : ∀ e : Expr, e.Expand.eval I pw env = e.eval I pw env
  | .const _ => rfl
  | .var _ => rfl
  | .add c ts => by
    simp only [Expr.Expand]
    rw [Expr.eval_sadd, ETerms.eval_expandSum ts]
    simp [Expr.eval]
  | .mul c fs => by
    simp only [Expr.Expand]
    rw [EFactors.eval_expandProd fs (.const c)]
    simp [Expr.eval]
  | .pow b e => by
    simp only [Expr.Expand]
    simp [Expr.eval, Expr.eval_Expand b, Expr.eval_Expand e]
  | .np k as => by
    simp only [Expr.Expand]
    simp [Expr.eval, EList.eval_expandList as]

theorem ETerms.eval_expandSum :
    ∀ ts : ETerms, ts.expandSum.eval I pw env = ts.evalSum I pw env
  | .nil => rfl
  | .cons e q r => by
    simp only [ETerms.expandSum]
    rw [Expr.eval_sadd, Expr.eval_qmul, Expr.eval_Expand e, ETerms.eval_expandSum r]
    simp [ETerms.evalSum]

theorem EFactors.eval_expandProd :
    ∀ (fs : EFactors) (acc : Expr),
      (fs.expandProd acc).eval I pw env = acc.eval I pw env * fs.evalProd I pw env
  | .nil, acc => by simp [EFactors.expandProd, EFactors.evalProd]
  | .cons b ex r, acc => by
    simp only [EFactors.expandProd]
    rw [EFactors.eval_expandProd r, Expr.eval_dmul]
    by_cases h : ex = Expr.const 1
    · subst h
      simp [Expr.eval_Expand b, EFactors.evalProd]
      ring
    · simp [h, EFactors.evalProd, Expr.eval, Expr.eval_Expand b, Expr.eval_Expand ex]
      ring

theorem EList.eval_expandList :
    ∀ as : EList, as.expandList.evalList I pw env = as.evalList I pw env
  | .nil => rfl
  | .cons e r => by
    simp only [EList.expandList, EList.evalList]
    rw [Expr.eval_Expand e, EList.eval_expandList r]
end

end EvalExpand

/-- Errors raised by the lumped-parameter factorizer (`DecomposeLumpedParametersVisitor`):
a mixed power with constant exponent ("CAN be factored ... not been implemented yet"),
a mixed power with non-constant exponent, and a mixed opaque nonlinear term; each
carries the offending sub-expression. -/
inductive LPErr : Type
  | unsupportedMixedPower : Expr → LPErr
  | nonSeparablePower : Expr → LPErr
  | nonSeparableNonlinearTerm : Expr → LPErr
  deriving DecidableEq, Repr

/-- The lumped factorization triple `(W, α, w0)`; the weight/basis-function
pairs `(Wᵢ, αᵢ)` are kept positionally paired in one list. -/
structure LF : Type where
  terms : List (Expr × Expr)
  w0 : Expr
  deriving DecidableEq, Repr

/-- Embedded from `DecomposeLumpedParametersVisitor::VisitAddition`'s map
update `w_map.emplace(key, 0).first->second += value`: an ordered-map
insertion keyed by the weight expression (total order realized by `Expr.enc`);
an existing structurally identical key accumulates the α-value, a fresh key
starts from the zero expression. -/
def wmapInsert (k v : Expr) : List (Expr × Expr) → List (Expr × Expr)
  | [] => [(k, Expr.sadd (.const 0) v)]
  | (k1, v1) :: rest =>
    if k = k1 then (k1, Expr.sadd v1 v) :: rest
    else if k.enc < k1.enc then (k, Expr.sadd (.const 0) v) :: (k1, v1) :: rest
    else (k1, v1) :: wmapInsert k v rest

/-- Insertion of all pairs `(cᵢ·w_i[j], α_i[j])` of one addition term into the
weight-keyed map, in position order. -/
def wmapInsertAll (c : ℤ) : List (Expr × Expr) → List (Expr × Expr) → List (Expr × Expr)
  | [], m => m
  | (w, a) :: rest, m => wmapInsertAll c rest (wmapInsert (Expr.qmul c w) a m)

/-- Embedded from `DecomposeLumpedParametersVisitor::SimpleMultiplication`:
the product of two factorizations is the outer product of their term lists,
plus the `w0_a`-scaled terms of `b` (skipped when `w0_a` is structurally
zero), plus the `w0_b`-scaled terms of `a` (skipped when `w0_b` is
structurally zero), with constant part `w0_a·w0_b`. -/
def simpleMultiplication (a b : LF) : LF :=
  let cross := a.terms.flatMap fun wa => b.terms.map fun wb =>
    (Expr.smul wa.1 wb.1, Expr.smul wa.2 wb.2)
  let fromA := if a.w0.isZero then [] else b.terms.map fun wb => (Expr.smul a.w0 wb.1, wb.2)
  let fromB := if b.w0.isZero then [] else a.terms.map fun wa => (Expr.smul b.w0 wa.1, wa.2)
  ⟨cross ++ fromA ++ fromB, Expr.smul a.w0 b.w0⟩

/-- Embedded from `DecomposeLumpedParametersVisitor::VisitPow`: a power whose
variables are all parameters is a basis function with weight 1; one with no
parameter variables goes to the remainder; a mixed power fails, with the
error depending on whether the exponent is a constant. -/
def visitPow (e exponent : Expr) (parameters : Finset ℕ) : Except LPErr LF :=
  if e.vars ⊆ parameters then .ok ⟨[(.const 1, e)], .const 0⟩
  else if e.vars ∩ parameters = ∅ then .ok ⟨[], e⟩
  else if exponent.isConst then .error (.unsupportedMixedPower e)
  else .error (.nonSeparablePower e)

/-- Embedded from `DecomposeLumpedParametersVisitor::VisitNonPolynomialTerm`,
to which the visitors of division, absolute value, every
transcendental/trigonometric/hyperbolic function, min, max, ceil, floor,
if-then-else, and uninterpreted functions all delegate: all-parameter
variables make a basis function with weight 1, no parameter variables go to
the remainder, and mixed variables fail. -/
def visitNonPolynomialTerm (e : Expr) (parameters : Finset ℕ) : Except LPErr LF :=
  if e.vars ⊆ parameters then .ok ⟨[(.const 1, e)], .const 0⟩
  else if e.vars ∩ parameters = ∅ then .ok ⟨[], e⟩
  else .error (.nonSeparableNonlinearTerm e)

mutual
/-- Embedded from `DecomposeLumpedParametersVisitor::Visit`'s per-kind
dispatch: parameter variables become basis functions, other variables and
constants go to the remainder, additions merge their recursively decomposed
terms through the weight-keyed map, multiplications fold their factors
through `simpleMultiplication`, and powers and opaque operators are handled
by their non-recursive visitors. -/
def Visit : Expr → Finset ℕ → Except LPErr LF
  | .const c, _ => .ok ⟨[], .const c⟩
  | .var v, parameters =>
    if v ∈ parameters then .ok ⟨[(.const 1, .var v)], .const 0⟩
    else .ok ⟨[], .var v⟩
  | .add c ts, parameters => do
    let r ← VisitTerms ts parameters [] (.const c)
    .ok ⟨r.1, r.2⟩
  | .mul c fs, parameters => VisitFactors fs parameters ⟨[], .const c⟩
  | .pow b ex, parameters => visitPow (.pow b ex) ex parameters
  | .np k as, parameters => visitNonPolynomialTerm (.np k as) parameters

/-- Embedded from the loop body of `VisitAddition`: each term `cᵢ·eᵢ` is
decomposed, its remainder is accumulated into `w0`, and its weight/α pairs
are merged into the weight-keyed map. -/
def VisitTerms : ETerms → Finset ℕ → List (Expr × Expr) → Expr →
    Except LPErr (List (Expr × Expr) × Expr)
  | .nil, _, m, w0 => .ok (m, w0)
  | .cons e c r, parameters, m, w0 => do
    let f ← Visit e parameters
    VisitTerms r parameters (wmapInsertAll c f.terms m) (Expr.sadd w0 (Expr.qmul c f.w0))

/-- Embedded from the loop body of `VisitMultiplication`: the running
factorization starts at `(W=[], α=[], w0=c)` and each base/exponent factor is
decomposed (a factor with exponent literally 1 by a direct visit of the base,
any other through `visitPow`) and combined by `simpleMultiplication`. -/
def VisitFactors : EFactors → Finset ℕ → LF → Except LPErr LF
  | .nil, _, f => .ok f
  | .cons b ex r, parameters, f => do
    let g ← if ex.isOne then Visit b parameters else visitPow (.pow b ex) ex parameters
    VisitFactors r parameters (simpleMultiplication f g)
end

/-- Embedded from `DecomposeLumpedParametersVisitor::Decompose`: expand the
expression, then visit it. -/
def Decompose (e : Expr) (parameters : Finset ℕ) : Except LPErr LF :=
  Visit e.Expand parameters

/-- Add a weight onto element `i` of a column of the driver's α-keyed map
(`(it->second)[i] += w[j]`). -/
def colAdd (i : ℕ) (w : Expr) (col : List Expr) : List Expr :=
  col.set i (Expr.sadd (col.getD i (.const 0)) w)

/-- Embedded from `DecomposeLumpedParameters`'s map update
`alpha_map.emplace(alpha[j], Zero(f.size())).first->second[i] += w[j]`: an
ordered-map insertion keyed by the α expression whose value is a per-row
accumulator column; a fresh key allocates an all-zero column of length `n`. -/
def amapInsert (n i : ℕ) (k w : Expr) : List (Expr × List Expr) → List (Expr × List Expr)
  | [] => [(k, colAdd i w (List.replicate n (.const 0)))]
  | (k1, col1) :: rest =>
    if k = k1 then (k1, colAdd i w col1) :: rest
    else if k.enc < k1.enc then
      (k, colAdd i w (List.replicate n (.const 0))) :: (k1, col1) :: rest
    else (k1, col1) :: amapInsert n i k w rest

/-- Insertion of all weight/α pairs of row `i`'s factorization into the
driver's α-keyed map, in position order. -/
def amapInsertRow (n i : ℕ) : List (Expr × Expr) → List (Expr × List Expr) →
    List (Expr × List Expr)
  | [], m => m
  | (w, a) :: rest, m => amapInsertRow n i rest (amapInsert n i a w m)

/-- Embedded from the row loop of `DecomposeLumpedParameters`: decompose each
row, record its remainder, and merge its weight/α pairs into the global
α-keyed map under the row's index. -/
def driverLoop (n : ℕ) (parameters : Finset ℕ) :
    List Expr → ℕ → List (Expr × List Expr) → List Expr →
    Except LPErr (List (Expr × List Expr) × List Expr)
  | [], _, m, w0s => .ok (m, w0s)
  | e :: rest, i, m, w0s => do
    let f ← Decompose e parameters
    driverLoop n parameters rest (i + 1) (amapInsertRow n i f.terms m) (w0s ++ [f.w0])

/-- Embedded from `DecomposeLumpedParameters` (the public vector driver): the
rows of `f` are decomposed against the parameter set, sharing one basis
column per structurally identical α expression; the result is `W` (as a list
of rows), `α` (the ordered list of keys), and `w0`. -/
def DecomposeLumpedParameters (f : List Expr) (parameters : Finset ℕ) :
    Except LPErr (List (List Expr) × List Expr × List Expr) := do
  let r ← driverLoop f.length parameters f 0 [] []
  .ok ((List.range f.length).map fun i => r.1.map fun kv => kv.2.getD i (.const 0),
       r.1.map fun kv => kv.1, r.2)

end DrakeDecompose

deriving instance DecidableEq for Except

namespace DrakeDecompose

/-- Modelled from the spec: a monomial of the polynomial normal form, as
exposed by `Monomial::get_powers`: the list of (variable id, positive
exponent) pairs, kept sorted by variable id (absent variable = exponent 0). -/
abbrev Mono : Type := List (ℕ × ℕ)

/-- Modelled from the spec: the polynomial normal form's
monomial-to-coefficient map; every stored coefficient is a (nonzero) numeric
constant, modelled as an exact rational. -/
abbrev Poly : Type := List (Mono × ℚ)

/-- Modelled from the spec: `Monomial::total_degree`, the sum of the
exponents. -/
def Mono.totalDegree (m : Mono) : ℕ := (m.map (·.2)).sum

/-- Value of a monomial under a variable assignment. -/
def Mono.mevalQ (env : ℕ → ℚ) (m : Mono) : ℚ := (m.map fun p => env p.1 ^ p.2).prod

/-- Modelled from the spec: `Polynomial::TotalDegree`, the maximum monomial
degree present. -/
def Poly.totalDegree (p : Poly) : ℕ := (p.map fun mc => mc.1.totalDegree).foldr max 0

/-- Value of a polynomial under a variable assignment. -/
def Poly.pevalQ (env : ℕ → ℚ) (p : Poly) : ℚ := (p.map fun mc => mc.2 * mc.1.mevalQ env).sum

/-- Strict sortedness of a monomial's power list by variable id. -/
def Mono.sortedStrict : Mono → Bool
  | [] => true
  | [_] => true
  | a :: b :: r => decide (a.1 < b.1) && Mono.sortedStrict (b :: r)

/-- Well-formedness of a monomial in the external algebra's normal form:
strictly increasing variable ids and positive exponents. -/
def MonoWF (m : Mono) : Prop :=
  m.sortedStrict = true ∧ ∀ p ∈ m, 0 < p.2

/-- Well-formedness of a polynomial in the external algebra's normal form:
well-formed distinct monomials with nonzero coefficients. -/
def PolyWF (p : Poly) : Prop :=
  (∀ mc ∈ p, MonoWF mc.1) ∧ (p.map (·.1)).Nodup ∧ ∀ mc ∈ p, mc.2 ≠ 0

instance (m : Mono) : Decidable (MonoWF m) :=
  inferInstanceAs (Decidable (m.sortedStrict = true ∧ ∀ p ∈ m, 0 < p.2))

instance (p : Poly) : Decidable (PolyWF p) :=
  inferInstanceAs (Decidable ((∀ mc ∈ p, MonoWF mc.1) ∧
    (p.map (fun mc : Mono × ℚ => mc.1)).Nodup ∧ ∀ mc ∈ p, mc.2 ≠ 0))

/-- The set of variable ids used by a polynomial. -/
def Poly.pvars (p : Poly) : List ℕ := p.flatMap fun mc => mc.1.map (·.1)

/-- Lookup in the variable-index map (`map_var_to_index.at`), modelled as an
association list from variable id to dense position. -/
def idxLookup (idx : List (ℕ × ℕ)) (v : ℕ) : Option ℕ :=
  (idx.find? fun p => p.1 = v).map (·.2)

/-- Point update of a dense matrix modelled as a function. -/
def matSet (Q : ℕ → ℕ → ℚ) (i j : ℕ) (v : ℚ) : ℕ → ℕ → ℚ :=
  fun a b => if a = i ∧ b = j then v else Q a b

/-- Point update of a dense vector modelled as a function. -/
def vecSet (b : ℕ → ℚ) (i : ℕ) (v : ℚ) : ℕ → ℚ :=
  fun a => if a = i then v else b a

/-- Errors of `DecomposeQuadraticPolynomial`: a monomial of order higher than
2 ("cannot be handled by DecomposeQuadraticPolynomial"), or the failure of a
`DRAKE_DEMAND`/`DRAKE_ASSERT`/`.at` consistency check (zero stored
coefficient, unexpected exponent shape, or a variable missing from the index
map). -/
inductive QPErr : Type
  | degreeExceeded : Mono → QPErr
  | demandFailure : QPErr
  deriving DecidableEq, Repr

/-- One iteration of `DecomposeQuadraticPolynomial`'s monomial loop, embedded
from the body of the `for` loop: demand a nonzero constant coefficient,
reject order above 2, then classify by the monomial's power list: two
variables (each demanded to the first power) symmetrize an off-diagonal
entry, one variable contributes twice the coefficient on the diagonal or the
coefficient to the linear part, anything else accumulates into the constant
term. -/
def dqpStep (idx : List (ℕ × ℕ)) (st : (ℕ → ℕ → ℚ) × (ℕ → ℚ) × ℚ) (mc : Mono × ℚ) :
    Except QPErr ((ℕ → ℕ → ℚ) × (ℕ → ℚ) × ℚ) :=
  let Q := st.1
  let b := st.2.1
  let c := st.2.2
  if mc.2 = 0 then .error .demandFailure
  else if mc.1.totalDegree > 2 then .error (.degreeExceeded mc.1)
  else
    match mc.1 with
    | [(v1, e1), (v2, e2)] =>
      if e1 = 1 ∧ e2 = 1 then
        match idxLookup idx v1, idxLookup idx v2 with
        | some i1, some i2 =>
          let Q1 := matSet Q i1 i2 (Q i1 i2 + mc.2)
          let Q2 := matSet Q1 i2 i1 (Q1 i1 i2)
          .ok (Q2, b, c)
        | _, _ => .error .demandFailure
      else .error .demandFailure
    | [(v, e)] =>
      match idxLookup idx v with
      | some i =>
        if e = 2 then .ok (matSet Q i i (Q i i + 2 * mc.2), b, c)
        else if e = 1 then .ok (Q, vecSet b i (b i + mc.2), c)
        else .error .demandFailure
      | none => .error .demandFailure
    | _ => .ok (Q, b, c + mc.2)

/-- Embedded from `DecomposeQuadraticPolynomial`: starting from zeroed
outputs, fold the monomial loop over the polynomial's
monomial-to-coefficient map. -/
def DecomposeQuadraticPolynomial (poly : Poly) (idx : List (ℕ × ℕ)) :
    Except QPErr ((ℕ → ℕ → ℚ) × (ℕ → ℚ) × ℚ) :=
  poly.foldlM (dqpStep idx) (fun _ _ => 0, fun _ => 0, 0)

/-- The quadratic form `xᵗQx` over the first `n` positions. -/
def quadForm (n : ℕ) (x : ℕ → ℚ) (Q : ℕ → ℕ → ℚ) : ℚ :=
  ∑ i ∈ Finset.range n, ∑ j ∈ Finset.range n, x i * Q i j * x j

/-- The linear form `bᵗx` over the first `n` positions. -/
def linForm (n : ℕ) (x : ℕ → ℚ) (b : ℕ → ℚ) : ℚ :=
  ∑ i ∈ Finset.range n, b i * x i

/-- The value `0.5·xᵗQx + bᵗx + c` of a quadratic decomposition state. -/
def quadSem (n : ℕ) (x : ℕ → ℚ) (st : (ℕ → ℕ → ℚ) × (ℕ → ℚ) × ℚ) : ℚ :=
  (1 / 2) * quadForm n x st.1 + linForm n x st.2.1 + st.2.2

/-- Symmetry of a matrix modelled as a function. -/
def SymmM (Q : ℕ → ℕ → ℚ) : Prop := ∀ a b, Q a b = Q b a

/-- A variable assignment `env` agrees with the position assignment `x`
through the variable-index map. -/
def Compat (idx : List (ℕ × ℕ)) (x : ℕ → ℚ) (env : ℕ → ℚ) : Prop :=
  ∀ v i, idxLookup idx v = some i → env v = x i

/-- Well-formedness of a variable-index map for size `n`: positions lie below
`n` and no position is shared by two variables. -/
def IdxWF (n : ℕ) (idx : List (ℕ × ℕ)) : Prop :=
  (∀ pr ∈ idx, pr.2 < n) ∧ ∀ p ∈ idx, ∀ q ∈ idx, p.2 = q.2 → p.1 = q.1

instance (n : ℕ) (idx : List (ℕ × ℕ)) : Decidable (IdxWF n idx) :=
  inferInstanceAs (Decidable ((∀ pr ∈ idx, pr.2 < n) ∧
    ∀ p ∈ idx, ∀ q ∈ idx, p.2 = q.2 → p.1 = q.1))

theorem idxLookup_some_mem {idx : List (ℕ × ℕ)} {v i : ℕ}
    (h : idxLookup idx v = some i) : (v, i) ∈ idx := by
  unfold idxLookup at h
  obtain ⟨pr, hfind, hsnd⟩ := Option.map_eq_some'.mp h
  have hmem := List.mem_of_find?_eq_some hfind
  have hfst := List.find?_some hfind
  simp only [decide_eq_true_eq] at hfst
  have : pr = (v, i) := by
    obtain ⟨a, b⟩ := pr
    simp_all
  rwa [this] at hmem

/-- Every variable of the polynomial has a position in the index map. -/
def PolyVarsIndexed (poly : Poly) (idx : List (ℕ × ℕ)) : Prop :=
  ∀ v ∈ poly.pvars, (idxLookup idx v).isSome = true

instance (poly : Poly) (idx : List (ℕ × ℕ)) : Decidable (PolyVarsIndexed poly idx) :=
  inferInstanceAs (Decidable (∀ v ∈ poly.pvars, (idxLookup idx v).isSome = true))

theorem quadForm_matSet (n i j : ℕ) (hi : i < n) (hj : j < n) (v : ℚ)
    (Q : ℕ → ℕ → ℚ) (x : ℕ → ℚ) :
    quadForm n x (matSet Q i j v) = quadForm n x Q + x i * (v - Q i j) * x j := by
  unfold quadForm
  have hsplit : ∀ a b : ℕ, x a * (matSet Q i j v) a b * x b
      = x a * Q a b * x b + (if a = i ∧ b = j then x a * (v - Q i j) * x b else 0) := by
    intro a b
    unfold matSet
    by_cases h : a = i ∧ b = j
    · obtain ⟨h1, h2⟩ := h; subst h1; subst h2; simp; ring
    · simp [h]
  simp only [hsplit, Finset.sum_add_distrib]
  have hinner : ∀ a : ℕ,
      (∑ b ∈ Finset.range n, if a = i ∧ b = j then x a * (v - Q i j) * x b else 0)
      = if a = i then x a * (v - Q i j) * x j else 0 := by
    intro a
    by_cases ha : a = i
    · subst ha
      simp only [true_and]
      rw [Finset.sum_ite_eq' (Finset.range n) j fun b => x a * (v - Q a j) * x b]
      simp [Finset.mem_range.mpr hj]
    · simp [ha]
  simp only [hinner]
  rw [Finset.sum_ite_eq' (Finset.range n) i fun a => x a * (v - Q i j) * x j]
  simp [Finset.mem_range.mpr hi]

theorem linForm_vecSet (n i : ℕ) (hi : i < n) (v : ℚ) (b : ℕ → ℚ) (x : ℕ → ℚ) :
    linForm n x (vecSet b i v) = linForm n x b + (v - b i) * x i := by
  unfold linForm
  have hsplit : ∀ a : ℕ, (vecSet b i v) a * x a
      = b a * x a + (if a = i then (v - b i) * x a else 0) := by
    intro a
    unfold vecSet
    by_cases h : a = i
    · subst h; simp; ring
    · simp [h]
  simp only [hsplit, Finset.sum_add_distrib]
  rw [Finset.sum_ite_eq' (Finset.range n) i fun a => (v - b i) * x a]
  simp [Finset.mem_range.mpr hi]

theorem matSet_same (Q : ℕ → ℕ → ℚ) (i j : ℕ) (v : ℚ) : matSet Q i j v i j = v := by
  simp [matSet]

theorem matSet_other (Q : ℕ → ℕ → ℚ) (i j a b : ℕ) (v : ℚ) (h : ¬(a = i ∧ b = j)) :
    matSet Q i j v a b = Q a b := by
  simp [matSet, h]

theorem SymmM_matSet_diag (Q : ℕ → ℕ → ℚ) (i : ℕ) (v : ℚ) (hsym : SymmM Q) :
    SymmM (matSet Q i i v) := by
  intro a b
  unfold matSet
  by_cases ha : a = i <;> by_cases hb : b = i <;> simp_all <;> apply hsym

theorem SymmM_matSet_cross (Q : ℕ → ℕ → ℚ) (i j : ℕ) (v : ℚ) (hij : i ≠ j)
    (hsym : SymmM Q) :
    SymmM (matSet (matSet Q i j v) j i v) := by
  intro a b
  unfold matSet
  by_cases hai : a = i <;> by_cases haj : a = j <;>
    by_cases hbi : b = i <;> by_cases hbj : b = j <;>
    simp_all <;> apply hsym

/-- Shape analysis of a well-formed monomial of total degree at most 2. -/
theorem mono_shape (m : Mono) (h : MonoWF m) (hd : m.totalDegree ≤ 2) :
    m = [] ∨ (∃ v, m = [(v, 1)]) ∨ (∃ v, m = [(v, 2)]) ∨
      ∃ v w, v < w ∧ m = [(v, 1), (w, 1)] := by
  obtain ⟨hchain, hpos⟩ := h
  match m with
  | [] => exact Or.inl rfl
  | [(v, e)] =>
    have he : 0 < e := hpos (v, e) (by simp)
    have hde : e ≤ 2 := by simpa [Mono.totalDegree] using hd
    interval_cases e
    · exact Or.inr (Or.inl ⟨v, rfl⟩)
    · exact Or.inr (Or.inr (Or.inl ⟨v, rfl⟩))
  | (v, e) :: (w, f) :: rest =>
    have he : 0 < e := hpos (v, e) (by simp)
    have hf : 0 < f := hpos (w, f) (by simp)
    have hdeg : e + (f + ((rest.map (·.2)).sum)) ≤ 2 := by
      simpa [Mono.totalDegree] using hd
    have hrest : rest = [] := by
      cases rest with
      | nil => rfl
      | cons y ys =>
        have hy : 0 < y.2 := hpos y (by simp)
        have : 0 < ((y :: ys).map (·.2)).sum := by
          simp only [List.map_cons, List.sum_cons]
          omega
        omega
    subst hrest
    have he1 : e = 1 := by simp at hdeg; omega
    have hf1 : f = 1 := by simp at hdeg; omega
    subst he1; subst hf1
    have hvw : v < w := by
      have := hchain
      simp only [Mono.sortedStrict, Bool.and_eq_true, decide_eq_true_eq] at this
      exact this.1
    exact Or.inr (Or.inr (Or.inr ⟨v, w, hvw, rfl⟩))


/-- One monomial of a well-formed degree-at-most-2 polynomial whose variables
are indexed is processed without error, preserves symmetry, and adds exactly
its value to the decomposition's semantics. -/
theorem dqpStep_ok (n : ℕ) (idx : List (ℕ × ℕ)) (hIdx : IdxWF n idx)
    (m : Mono) (co : ℚ) (hm : MonoWF m) (hc : co ≠ 0) (hd : m.totalDegree ≤ 2)
    (hv : ∀ v ∈ m.map (·.1), (idxLookup idx v).isSome = true)
    (st : (ℕ → ℕ → ℚ) × (ℕ → ℚ) × ℚ) (hsym : SymmM st.1) :
    ∃ st2, dqpStep idx st (m, co) = .ok st2 ∧ SymmM st2.1 ∧
      ∀ x env, Compat idx x env →
        quadSem n x st2 = quadSem n x st + co * m.mevalQ env := by
  obtain ⟨Q, b, c⟩ := st
  simp only at hsym
  rcases mono_shape m hm hd with h0 | ⟨v, h1⟩ | ⟨v, h2⟩ | ⟨v, w, hvw, h11⟩
  · subst h0
    refine ⟨(Q, b, c + co), by simp [dqpStep, hc, Mono.totalDegree], hsym, ?_⟩
    intro x env _
    simp [quadSem, Mono.mevalQ]
    ring
  · subst h1
    obtain ⟨i, hi⟩ := Option.isSome_iff_exists.mp (hv v (by simp))
    have hin : i < n := hIdx.1 (v, i) (idxLookup_some_mem hi)
    refine ⟨(Q, vecSet b i (b i + co), c),
      by simp [dqpStep, hc, Mono.totalDegree, hi], hsym, ?_⟩
    intro x env hcomp
    simp only [quadSem, linForm_vecSet n i hin, Mono.mevalQ, List.map_cons,
      List.map_nil, List.prod_cons, List.prod_nil, pow_one, mul_one]
    rw [hcomp v i hi]
    ring
  · subst h2
    obtain ⟨i, hi⟩ := Option.isSome_iff_exists.mp (hv v (by simp))
    have hin : i < n := hIdx.1 (v, i) (idxLookup_some_mem hi)
    refine ⟨(matSet Q i i (Q i i + 2 * co), b, c),
      by simp [dqpStep, hc, Mono.totalDegree, hi], SymmM_matSet_diag Q i _ hsym, ?_⟩
    intro x env hcomp
    simp only [quadSem, quadForm_matSet n i i hin hin, Mono.mevalQ, List.map_cons,
      List.map_nil, List.prod_cons, List.prod_nil, mul_one]
    rw [hcomp v i hi]
    ring
  · subst h11
    obtain ⟨i1, hi1⟩ := Option.isSome_iff_exists.mp (hv v (by simp))
    obtain ⟨i2, hi2⟩ := Option.isSome_iff_exists.mp (hv w (by simp))
    have h1n : i1 < n := hIdx.1 (v, i1) (idxLookup_some_mem hi1)
    have h2n : i2 < n := hIdx.1 (w, i2) (idxLookup_some_mem hi2)
    have h12 : i1 ≠ i2 := by
      intro he
      exact absurd (hIdx.2 (v, i1) (idxLookup_some_mem hi1) (w, i2)
        (idxLookup_some_mem hi2) (by simpa using he)) (Nat.ne_of_lt hvw)
    have hQ1 : matSet Q i1 i2 (Q i1 i2 + co) i1 i2 = Q i1 i2 + co := matSet_same Q i1 i2 _
    have hQ1other : matSet Q i1 i2 (Q i1 i2 + co) i2 i1 = Q i2 i1 :=
      matSet_other Q i1 i2 i2 i1 _ (by tauto)
    refine ⟨(matSet (matSet Q i1 i2 (Q i1 i2 + co)) i2 i1
        (matSet Q i1 i2 (Q i1 i2 + co) i1 i2), b, c), ?_, ?_, ?_⟩
    · simp [dqpStep, hc, Mono.totalDegree, hi1, hi2]
    · rw [hQ1]
      exact SymmM_matSet_cross Q i1 i2 _ h12 hsym
    · intro x env hcomp
      simp only [quadSem, hQ1]
      rw [quadForm_matSet n i2 i1 h2n h1n, quadForm_matSet n i1 i2 h1n h2n, hQ1other,
        hsym i2 i1]
      simp only [Mono.mevalQ, List.map_cons, List.map_nil, List.prod_cons,
        List.prod_nil, pow_one, mul_one]
      rw [hcomp v i1 hi1, hcomp w i2 hi2]
      ring


/-- A member monomial's degree is bounded by the polynomial's total degree. -/
theorem Poly.totalDegree_mem : ∀ (p : Poly) (mc : Mono × ℚ), mc ∈ p →
    mc.1.totalDegree ≤ p.totalDegree
  | hd :: tl, mc, h => by
    simp only [Poly.totalDegree, List.map_cons, List.foldr_cons]
    rcases List.mem_cons.mp h with he | ht
    · subst he; exact le_max_left _ _
    · exact le_trans (Poly.totalDegree_mem tl mc ht) (le_max_right _ _)

/-- The monomial fold of `DecomposeQuadraticPolynomial` succeeds on a
well-formed degree-at-most-2 polynomial with indexed variables, keeps the
matrix symmetric, and accumulates exactly the polynomial's value. -/
theorem dqp_fold (n : ℕ) (idx : List (ℕ × ℕ)) (hIdx : IdxWF n idx) :
    ∀ (poly : Poly) (st : (ℕ → ℕ → ℚ) × (ℕ → ℚ) × ℚ),
      (∀ mc ∈ poly, MonoWF mc.1) → (∀ mc ∈ poly, mc.2 ≠ 0) →
      (∀ mc ∈ poly, mc.1.totalDegree ≤ 2) →
      (∀ v ∈ poly.pvars, (idxLookup idx v).isSome = true) →
      SymmM st.1 →
      ∃ st2, poly.foldlM (dqpStep idx) st = .ok st2 ∧ SymmM st2.1 ∧
        ∀ x env, Compat idx x env →
          quadSem n x st2 = quadSem n x st + poly.pevalQ env
  | [], st, _, _, _, _, hsym =>
    ⟨st, rfl, hsym, by intro x env _; simp [Poly.pevalQ]⟩
  | mc :: rest, st, hwf, hnz, hdeg, hvars, hsym => by
    obtain ⟨m, co⟩ := mc
    obtain ⟨st1, hstep, hsym1, hsem1⟩ := dqpStep_ok n idx hIdx m co
      (hwf (m, co) (by simp)) (hnz (m, co) (by simp)) (hdeg (m, co) (by simp))
      (fun v hv => hvars v
        (by simp only [Poly.pvars, List.flatMap_cons, List.mem_append]; exact Or.inl hv))
      st hsym
    obtain ⟨st2, hfold, hsym2, hsem2⟩ := dqp_fold n idx hIdx rest st1
      (fun q hq => hwf q (by simp [hq])) (fun q hq => hnz q (by simp [hq]))
      (fun q hq => hdeg q (by simp [hq]))
      (fun v hv => hvars v
        (by simp only [Poly.pvars, List.flatMap_cons, List.mem_append]
            exact Or.inr (by simpa [Poly.pvars] using hv)))
      hsym1
    refine ⟨st2, ?_, hsym2, ?_⟩
    · simpa [List.foldlM, hstep] using hfold
    · intro x env hcomp
      rw [hsem2 x env hcomp, hsem1 x env hcomp]
      simp [Poly.pevalQ]
      ring


/-- C5: for every polynomial of total degree at most 2 with (constant)
nonzero coefficients and a well-formed variable-index map covering its
variables, `DecomposeQuadraticPolynomial` succeeds with a symmetric matrix
`Q`, a vector `b` and a scalar `c` such that `0.5·xᵗQx + bᵗx + c`, read over
the indexed variable ordering, equals the polynomial's value exactly. -/
theorem DecomposeQuadraticPolynomial_roundtrip (poly : Poly) (idx : List (ℕ × ℕ))
    (hwf : PolyWF poly) (hdeg : poly.totalDegree ≤ 2)
    (hIdx : IdxWF idx.length idx) (hvars : PolyVarsIndexed poly idx) :
    ∃ Q b c, DecomposeQuadraticPolynomial poly idx = .ok (Q, b, c) ∧ SymmM Q ∧
      ∀ x env, Compat idx x env →
        (1 / 2) * quadForm idx.length x Q + linForm idx.length x b + c
          = poly.pevalQ env := by
  obtain ⟨st2, hfold, hsym2, hsem⟩ := dqp_fold idx.length idx hIdx poly
    (fun _ _ => 0, fun _ => 0, 0) hwf.1 (fun mc h => hwf.2.2 mc h)
    (fun mc h => le_trans (Poly.totalDegree_mem poly mc h) hdeg) hvars
    (fun a b => rfl)
  refine ⟨st2.1, st2.2.1, st2.2.2, by simpa [DecomposeQuadraticPolynomial] using hfold,
    hsym2, fun x env hc => ?_⟩
  have h := hsem x env hc
  simpa [quadSem, quadForm, linForm] using h

/-- Closed witness for C5 at the polynomial `x₀² + x₀x₁ + 3x₁ + 5` with the
index map `x₀ ↦ 0, x₁ ↦ 1`. -/
theorem DecomposeQuadraticPolynomial_roundtrip_witness :
    ∃ Q b c, DecomposeQuadraticPolynomial
        [([(0, 2)], 1), ([(0, 1), (1, 1)], 1), ([(1, 1)], 3), ([], 5)]
        [(0, 0), (1, 1)] = .ok (Q, b, c) ∧ SymmM Q ∧
      ∀ x env, Compat [(0, 0), (1, 1)] x env →
        (1 / 2) * quadForm 2 x Q + linForm 2 x b + c
          = Poly.pevalQ env [([(0, 2)], 1), ([(0, 1), (1, 1)], 1), ([(1, 1)], 3), ([], 5)] :=
  DecomposeQuadraticPolynomial_roundtrip
    [([(0, 2)], 1), ([(0, 1), (1, 1)], 1), ([(1, 1)], 3), ([], 5)]
    [(0, 0), (1, 1)] (by decide) (by decide) (by decide) (by decide)


/-- Errors of the linear extractor.  The `is_polynomial`/`NonConstantCoefficient`
paths of the source concern the external conversion from expressions to the
polynomial normal form and are absorbed by modelling that conversion's output
directly (a `Poly` with constant rational coefficients). -/
inductive LinErr : Type
  | nonLinear : Poly → LinErr
  | unexpectedConstantTerm : Poly → LinErr
  deriving DecidableEq, Repr

/-- Embedded from `FindCoefficientAndFill`: the coefficient of the monomial in
the normalized map, with a missing monomial contributing `0.0`. -/
def findCoefficient (p : Poly) (m : Mono) : ℚ :=
  ((p.find? fun mc => mc.1 = m).map (·.2)).getD 0

/-- Embedded from the `map.contains(Monomial{})` test: whether the normalized
map stores the constant monomial. -/
def hasConstantTerm (p : Poly) : Bool := p.any fun mc => mc.1 = []

/-- Embedded from `DecomposeLinearExpressions`'s row loop: reject a row of
total degree above 1 ("non-linear"), reject a row whose map contains the
constant monomial ("This is an affine expression; a linear should have no
constant terms"), and otherwise fill the row with the coefficient of each
variable's degree-1 monomial. -/
def DecomposeLinearExpressions : List Poly → List ℕ → Except LinErr (List (List ℚ))
  | [], _ => .ok []
  | p :: rest, vars =>
    if p.totalDegree > 1 then .error (.nonLinear p)
    else if hasConstantTerm p then .error (.unexpectedConstantTerm p)
    else do
      let M ← DecomposeLinearExpressions rest vars
      .ok ((vars.map fun v => findCoefficient p [(v, 1)]) :: M)

/-- In a well-formed normal form, storing the constant monomial is the same
as having a nonzero constant coefficient. -/
theorem hasConstantTerm_iff (p : Poly) (hwf : PolyWF p) :
    hasConstantTerm p = true ↔ findCoefficient p [] ≠ 0 := by
  induction p with
  | nil => simp [hasConstantTerm, findCoefficient]
  | cons mc rest ih =>
    by_cases hk : mc.1 = ([] : Mono)
    · have hnz : mc.2 ≠ 0 := hwf.2.2 mc (by simp)
      simp [hasConstantTerm, findCoefficient, hk, List.find?_cons, hnz]
    · have hwfr : PolyWF rest :=
        ⟨fun q hq => hwf.1 q (by simp [hq]), (List.nodup_cons.mp hwf.2.1).2,
          fun q hq => hwf.2.2 q (by simp [hq])⟩
      have := ih hwfr
      simp only [hasConstantTerm, List.any_cons, findCoefficient, List.find?_cons] at *
      simpa [hk] using this


/-- Splitting a sum over a duplicate-free variable list at the unique
occurrence of `v`. -/
theorem map_sum_update (v : ℕ) (f g : ℕ → ℚ) (hgv : g v = 0)
    (hfg : ∀ w, w ≠ v → f w = g w) :
    ∀ vars : List ℕ, vars.Nodup → v ∈ vars →
      (vars.map f).sum = f v + (vars.map g).sum
  | [], _, hv => by simp at hv
  | w :: rest, hnd, hv => by
    rcases List.mem_cons.mp hv with he | ht
    · subst he
      have hvrest : v ∉ rest := (List.nodup_cons.mp hnd).1
      have : rest.map f = rest.map g :=
        List.map_congr_left fun u hu => hfg u (fun h => hvrest (h ▸ hu))
      simp [this, hgv]
    · have hwv : w ≠ v := fun h => (List.nodup_cons.mp hnd).1 (h ▸ ht)
      have := map_sum_update v f g hgv hfg rest (List.nodup_cons.mp hnd).2 ht
      simp only [List.map_cons, List.sum_cons, this, hfg w hwv]
      ring

/-- A linear (degree at most 1, no constant monomial) well-formed row is
reproduced exactly by its extracted coefficients. -/
theorem linear_row_semantics (vars : List ℕ) (hnd : vars.Nodup) :
    ∀ p : Poly, (∀ mc ∈ p, MonoWF mc.1) →
      ((p.map fun mc : Mono × ℚ => mc.1).Nodup) →
      (∀ mc ∈ p, mc.1.totalDegree ≤ 1) → (∀ mc ∈ p, mc.1 ≠ []) →
      (∀ v ∈ p.pvars, v ∈ vars) → ∀ env : ℕ → ℚ,
      ((vars.map fun v => findCoefficient p [(v, 1)] * env v).sum) = p.pevalQ env
  | [], _, _, _, _, _, env => by simp [findCoefficient, Poly.pevalQ]
  | (m, co) :: rest, hwf, hnodup, hdeg, hnc, hsub, env => by
    have hshape := mono_shape m (hwf (m, co) (by simp)) 
      (le_trans (hdeg (m, co) (by simp)) (by norm_num))
    have hd1 : m.totalDegree ≤ 1 := hdeg (m, co) (by simp)
    rcases hshape with h0 | ⟨v, h1⟩ | ⟨v, h2⟩ | ⟨v, w, hvw, h11⟩
    · exact absurd h0 (hnc (m, co) (by simp))
    · subst h1
      have hvvars : v ∈ vars := hsub v (by simp [Poly.pvars])
      have hnotin : ([(v, 1)] : Mono) ∉ rest.map fun mc : Mono × ℚ => mc.1 :=
        (List.nodup_cons.mp hnodup).1
      have hrest0 : findCoefficient rest [(v, 1)] = 0 := by
        unfold findCoefficient
        have : rest.find? (fun mc => mc.1 = [(v, 1)]) = none := by
          rw [List.find?_eq_none]
          intro q hq hq1
          exact hnotin (by simp only [decide_eq_true_eq] at hq1
                           exact hq1 ▸ List.mem_map_of_mem _ hq)
        simp [this]
      have hrec := linear_row_semantics vars hnd rest
        (fun q hq => hwf q (by simp [hq])) (List.nodup_cons.mp hnodup).2
        (fun q hq => hdeg q (by simp [hq])) (fun q hq => hnc q (by simp [hq]))
        (fun u hu => hsub u (by simp only [Poly.pvars, List.flatMap_cons, List.mem_append]
                                exact Or.inr hu)) env
      have hsplit := map_sum_update v
        (fun u => findCoefficient ((([(v, 1)], co)) :: rest) [(u, 1)] * env u)
        (fun u => findCoefficient rest [(u, 1)] * env u)
        (by simp [hrest0])
        (fun u hu => by
          unfold findCoefficient
          have : (([(v, 1)], co)).1 ≠ ([(u, 1)] : Mono) := by simp [Ne.symm hu]
          simp [List.find?_cons, this])
        vars hnd hvvars
      rw [hsplit, hrec]
      have hself : findCoefficient ((([(v, 1)], co)) :: rest) [(v, 1)] = co := by
        simp [findCoefficient, List.find?_cons]
      simp only [hself]
      simp [Poly.pevalQ, Mono.mevalQ]
    · subst h2
      simp [Mono.totalDegree] at hd1
    · subst h11
      simp [Mono.totalDegree] at hd1


/-- Rows of degree at most 1 with no constant monomial are all extracted. -/
theorem dle_ok (vars : List ℕ) :
    ∀ polys : List Poly, (∀ p ∈ polys, p.totalDegree ≤ 1) →
      (∀ p ∈ polys, hasConstantTerm p = false) →
      DecomposeLinearExpressions polys vars =
        .ok (polys.map fun p => vars.map fun v => findCoefficient p [(v, 1)])
  | [], _, _ => rfl
  | p :: rest, hdeg, hnc => by
    have h1 : ¬p.totalDegree > 1 := by have := hdeg p (by simp); omega
    have hrec := dle_ok vars rest (fun q hq => hdeg q (by simp [hq]))
      (fun q hq => hnc q (by simp [hq]))
    simp only [DecomposeLinearExpressions, h1, hnc p (by simp), hrec, if_false,
      Bool.false_eq_true, if_neg (by omega : ¬p.totalDegree > 1)]
    rfl

/-- With a row storing the constant monomial present, extraction fails with
`UnexpectedConstantTerm` at such a row. -/
theorem dle_error (vars : List ℕ) :
    ∀ polys : List Poly, (∀ p ∈ polys, p.totalDegree ≤ 1) →
      (∃ p ∈ polys, hasConstantTerm p = true) →
      ∃ p ∈ polys, hasConstantTerm p = true ∧
        DecomposeLinearExpressions polys vars = .error (.unexpectedConstantTerm p)
  | [], _, hex => by simp at hex
  | p :: rest, hdeg, hex => by
    have h1 : ¬p.totalDegree > 1 := by have := hdeg p (by simp); omega
    by_cases hc : hasConstantTerm p = true
    · exact ⟨p, by simp, hc, by simp [DecomposeLinearExpressions, h1, hc]⟩
    · have hex2 : ∃ q ∈ rest, hasConstantTerm q = true := by
        rcases hex with ⟨q, hq, hq2⟩
        rcases List.mem_cons.mp hq with he | ht
        · exact absurd (he ▸ hq2) hc
        · exact ⟨q, ht, hq2⟩
      obtain ⟨q, hq, hq2, hrec⟩ := dle_error vars rest
        (fun r hr => hdeg r (by simp [hr])) hex2
      refine ⟨q, by simp [hq], hq2, ?_⟩
      simp only [DecomposeLinearExpressions, if_neg h1, hrec]
      simp only [Bool.not_eq_true] at hc
      simp only [hc, Bool.false_eq_true, if_false]
      rfl

/-- C6: over well-formed rows of total degree at most 1 whose variables lie
in the given list, `DecomposeLinearExpressions` succeeds if and only if every
row's constant coefficient is zero; a nonzero constant coefficient produces
the `UnexpectedConstantTerm` failure; and on success every row holds the
exact per-variable coefficients (missing monomials contributing 0), which
reproduce the row's value. -/
theorem DecomposeLinearExpressions_spec (polys : List Poly) (vars : List ℕ)
    (hwf : ∀ p ∈ polys, PolyWF p) (hdeg : ∀ p ∈ polys, p.totalDegree ≤ 1)
    (hsub : ∀ p ∈ polys, ∀ v ∈ p.pvars, v ∈ vars) (hnd : vars.Nodup) :
    ((∃ M, DecomposeLinearExpressions polys vars = .ok M) ↔
      ∀ p ∈ polys, findCoefficient p [] = 0) ∧
    ((∃ p ∈ polys, findCoefficient p [] ≠ 0) →
      ∃ p ∈ polys, findCoefficient p [] ≠ 0 ∧
        DecomposeLinearExpressions polys vars = .error (.unexpectedConstantTerm p)) ∧
    ∀ M, DecomposeLinearExpressions polys vars = .ok M →
      M = (polys.map fun p => vars.map fun v => findCoefficient p [(v, 1)]) ∧
      ∀ p ∈ polys, ∀ env : ℕ → ℚ,
        ((vars.map fun v => findCoefficient p [(v, 1)] * env v).sum) = p.pevalQ env := by
  have hiff : ∀ p ∈ polys, (hasConstantTerm p = false ↔ findCoefficient p [] = 0) := by
    intro p hp
    have := hasConstantTerm_iff p (hwf p hp)
    constructor
    · intro hfalse
      by_contra hne
      exact absurd (this.mpr hne) (by simp [hfalse])
    · intro h0
      by_contra hne
      exact absurd (this.mp (by simpa using hne)) (by simp [h0])
  constructor
  · constructor
    · rintro ⟨M, hM⟩ p hp
      by_contra hne
      obtain ⟨q, hq, _, herr⟩ := dle_error vars polys hdeg
        ⟨p, hp, (hasConstantTerm_iff p (hwf p hp)).mpr hne⟩
      rw [hM] at herr
      exact Except.noConfusion herr
    · intro h0
      exact ⟨_, dle_ok vars polys hdeg fun p hp => (hiff p hp).mpr (h0 p hp)⟩
  constructor
  · rintro ⟨p, hp, hne⟩
    obtain ⟨q, hq, hq2, herr⟩ := dle_error vars polys hdeg
      ⟨p, hp, (hasConstantTerm_iff p (hwf p hp)).mpr hne⟩
    exact ⟨q, hq, (hasConstantTerm_iff q (hwf q hq)).mp hq2, herr⟩
  · intro M hM
    have hall : ∀ p ∈ polys, hasConstantTerm p = false := by
      intro p hp
      by_contra hc
      obtain ⟨q, hq, _, herr⟩ := dle_error vars polys hdeg ⟨p, hp, by simpa using hc⟩
      rw [hM] at herr
      exact Except.noConfusion herr
    have hok := dle_ok vars polys hdeg hall
    rw [hM] at hok
    refine ⟨(Except.ok.injEq _ _).mp hok, ?_⟩
    intro p hp env
    have hnc : ∀ mc ∈ p, mc.1 ≠ ([] : Mono) := by
      have := hall p hp
      simp only [hasConstantTerm, List.any_eq_false, decide_eq_true_eq] at this
      exact this
    exact linear_row_semantics vars hnd p (fun mc h => (hwf p hp).1 mc h)
      (hwf p hp).2.1
      (fun mc h => le_trans (Poly.totalDegree_mem p mc h) (hdeg p hp))
      hnc (hsub p hp) env


/-- The concrete rows `2x₀ + 3x₁` and `x₁` used by the C6 witness. -/
def poly6w : List Poly := [[([(0, 1)], 2), ([(1, 1)], 3)], [([(1, 1)], 1)]]

/-- Closed witness for C6 at the rows `2x₀ + 3x₁` and `x₁` over the variable
list `[x₀, x₁]`. -/
theorem DecomposeLinearExpressions_spec_witness :
    ((∃ M, DecomposeLinearExpressions poly6w [0, 1]
        = .ok M) ↔
      ∀ p ∈ poly6w, findCoefficient p [] = 0) ∧
    ((∃ p ∈ poly6w, findCoefficient p [] ≠ 0) →
      ∃ p ∈ poly6w, findCoefficient p [] ≠ 0 ∧
        DecomposeLinearExpressions poly6w [0, 1]
          = .error (.unexpectedConstantTerm p)) ∧
    ∀ M, DecomposeLinearExpressions poly6w [0, 1]
        = .ok M →
      M = (poly6w.map
        fun p => [0, 1].map fun v => findCoefficient p [(v, 1)]) ∧
      ∀ p ∈ poly6w, ∀ env : ℕ → ℚ,
        (([0, 1].map fun v => findCoefficient p [(v, 1)] * env v).sum) = p.pevalQ env :=
  DecomposeLinearExpressions_spec poly6w [0, 1]
    (by decide) (by decide) (by decide) (by decide)


mutual
/-- Modelled from the spec: `Expression::is_polynomial` over all of the
expression's own variables: constants, variables, additions and
multiplications of polynomials are polynomial, a power is polynomial exactly
when its base is and its exponent is a non-negative integer constant, and
every opaque operator node is non-polynomial. -/
def Expr.isPolynomial : Expr → Bool
  | .const _ => true
  | .var _ => true
  | .add _ ts => ts.allPolynomial
  | .mul _ fs => fs.allPolynomialPow
  | .pow b e =>
    b.isPolynomial && (match e with | .const n => decide (0 ≤ n) | _ => false)
  | .np _ _ => false

/-- Polynomial test for the terms of an addition node. -/
def ETerms.allPolynomial : ETerms → Bool
  | .nil => true
  | .cons e _ r => e.isPolynomial && r.allPolynomial

/-- Polynomial test for the factors of a multiplication node. -/
def EFactors.allPolynomialPow : EFactors → Bool
  | .nil => true
  | .cons b e r =>
    (b.isPolynomial && (match e with | .const n => decide (0 ≤ n) | _ => false))
      && r.allPolynomialPow
end

mutual
/-- Modelled from the spec: the total degree of the polynomial obtained by
re-expressing the expression in the variable set `S` (`Polynomial{e, S}`,
variables outside `S` going into the coefficients), computed syntactically on
the tree. -/
def Expr.degreeIn (S : Finset ℕ) : Expr → ℕ
  | .const _ => 0
  | .var v => if v ∈ S then 1 else 0
  | .add _ ts => ts.degreeIn S
  | .mul _ fs => fs.degreeIn S
  | .pow b e => (match e with | .const n => b.degreeIn S * n.toNat | _ => 0)
  | .np _ _ => 0

/-- Maximum degree over the terms of an addition node. -/
def ETerms.degreeIn (S : Finset ℕ) : ETerms → ℕ
  | .nil => 0
  | .cons e _ r => Nat.max (e.degreeIn S) (r.degreeIn S)

/-- Summed degree over the factors of a multiplication node. -/
def EFactors.degreeIn (S : Finset ℕ) : EFactors → ℕ
  | .nil => 0
  | .cons b e r =>
    (match e with | .const n => b.degreeIn S * n.toNat | _ => 0) + r.degreeIn S
end

/-- Embedded from `IsAffineVisitor::IsNotAffine`: the unrestricted
`is_polynomial` test comes first (the source's `TODO(#16393)` comment notes
this check is incorrect when a restricting set is present), then the total
degree of the polynomial re-expressed in the restricting set (or in all of
the expression's variables) is compared against 1. -/
def IsNotAffine (ov : Option (Finset ℕ)) (e : Expr) : Bool :=
  if !e.isPolynomial then true
  else
    match ov with
    | some S => decide (e.degreeIn S > 1)
    | none => decide (e.degreeIn e.vars > 1)

/-- Embedded from the restricted `IsAffine` overload: an empty matrix is
affine, otherwise the visitor reports whether no entry is non-affine. -/
def IsAffine (m : List (List Expr)) (vars : Finset ℕ) : Bool :=
  if (m.map List.length).sum = 0 then true
  else !(m.any fun row => row.any (IsNotAffine (some vars)))

/-- Embedded from the unrestricted `IsAffine` overload. -/
def IsAffineUnrestricted (m : List (List Expr)) : Bool :=
  if (m.map List.length).sum = 0 then true
  else !(m.any fun row => row.any (IsNotAffine none))

/-- The C7 failing input `x₀ + sin(x₁)`. -/
def affineBugInput : Expr :=
  .add 0 (.cons (.var 0) 1 (.cons (.np .sin (.cons (.var 1) .nil)) 1 .nil))

/-- C7: evaluating the code at the failing input `[[x₀ + sin(x₁)]]`
restricted to `{x₀}`: the entry is rejected as non-affine because the
unrestricted `is_polynomial` pre-check fires, even though its degree
re-expressed in the restricting set is 1 (affine) — the divergence the
source's `TODO(#16393)` comment acknowledges. -/
theorem IsAffine_restricted_bug :
    IsAffine [[affineBugInput]] {0} = false ∧
    affineBugInput.isPolynomial = false ∧
    affineBugInput.degreeIn {0} ≤ 1 := by decide


/-- Insertion into a strictly sorted duplicate-free list of variable ids. -/
def insertSortedDedup (v : ℕ) : List ℕ → List ℕ
  | [] => [v]
  | w :: rest =>
    if v < w then v :: w :: rest
    else if v = w then w :: rest
    else w :: insertSortedDedup v rest

/-- Union of variable-id lists keeping the result strictly sorted. -/
def unionSortedDedup (xs ys : List ℕ) : List ℕ := xs.foldr insertSortedDedup ys

mutual
/-- Modelled from the spec: the iteration of `Expression::GetVariables` — the
external ordered Variables set — as a strictly sorted duplicate-free list of
variable ids ("sorted order for deterministic outputs"). -/
def Expr.varsL : Expr → List ℕ
  | .const _ => []
  | .var v => [v]
  | .add _ ts => ts.varsL
  | .mul _ fs => fs.varsL
  | .pow b e => unionSortedDedup b.varsL e.varsL
  | .np _ as => as.varsL

/-- Sorted variable list of the terms of an addition node. -/
def ETerms.varsL : ETerms → List ℕ
  | .nil => []
  | .cons e _ r => unionSortedDedup e.varsL r.varsL

/-- Sorted variable list of the factors of a multiplication node. -/
def EFactors.varsL : EFactors → List ℕ
  | .nil => []
  | .cons b e r => unionSortedDedup b.varsL (unionSortedDedup e.varsL r.varsL)

/-- Sorted variable list of an operand list. -/
def EList.varsL : EList → List ℕ
  | .nil => []
  | .cons e r => unionSortedDedup e.varsL r.varsL
end

theorem mem_insertSortedDedup (v w : ℕ) :
    ∀ l : List ℕ, v ∈ insertSortedDedup w l ↔ v = w ∨ v ∈ l
  | [] => by simp [insertSortedDedup]
  | u :: rest => by
    unfold insertSortedDedup
    split
    · simp [or_comm, or_assoc, or_left_comm]
    · split
      · rename_i h1 h2
        subst h2
        simp
      · simp [mem_insertSortedDedup v w rest]
        tauto

theorem sorted_insertSortedDedup (w : ℕ) :
    ∀ l : List ℕ, l.Sorted (· < ·) → (insertSortedDedup w l).Sorted (· < ·)
  | [], _ => by simp [insertSortedDedup]
  | u :: rest, h => by
    unfold insertSortedDedup
    split
    · rename_i h1
      refine List.sorted_cons.mpr ⟨?_, h⟩
      intro b hb
      rcases List.mem_cons.mp hb with he | ht
      · omega
      · have := (List.sorted_cons.mp h).1 b ht
        omega
    · split
      · exact h
      · rename_i h1 h2
        have hlt : u < w := by omega
        obtain ⟨hu, hrest⟩ := List.sorted_cons.mp h
        refine List.sorted_cons.mpr ⟨?_, sorted_insertSortedDedup w rest hrest⟩
        intro b hb
        rcases (mem_insertSortedDedup b w rest).mp hb with he | ht
        · omega
        · exact hu b ht

theorem mem_unionSortedDedup (v : ℕ) :
    ∀ xs ys : List ℕ, v ∈ unionSortedDedup xs ys ↔ v ∈ xs ∨ v ∈ ys
  | [], ys => by simp [unionSortedDedup]
  | x :: rest, ys => by
    unfold unionSortedDedup
    simp only [List.foldr_cons]
    rw [mem_insertSortedDedup]
    have := mem_unionSortedDedup v rest ys
    unfold unionSortedDedup at this
    rw [this]
    simp [or_assoc]

theorem sorted_unionSortedDedup :
    ∀ xs ys : List ℕ, ys.Sorted (· < ·) → (unionSortedDedup xs ys).Sorted (· < ·)
  | [], ys, h => h
  | x :: rest, ys, h => by
    unfold unionSortedDedup
    simp only [List.foldr_cons]
    exact sorted_insertSortedDedup x _ (sorted_unionSortedDedup rest ys h)

section VarsLLemmas

variable (v : ℕ)

mutual
theorem Expr.mem_varsL : ∀ e : Expr, v ∈ e.varsL ↔ v ∈ e.vars
  | .const _ => by simp [Expr.varsL, Expr.vars]
  | .var w => by simp [Expr.varsL, Expr.vars]
  | .add _ ts => by simpa [Expr.varsL, Expr.vars] using ETerms.mem_varsLTerms ts
  | .mul _ fs => by simpa [Expr.varsL, Expr.vars] using EFactors.mem_varsLFactors fs
  | .pow b e => by
    simp [Expr.varsL, Expr.vars, mem_unionSortedDedup, Expr.mem_varsL b, Expr.mem_varsL e]
  | .np _ as => by simpa [Expr.varsL, Expr.vars] using EList.mem_varsLList as

theorem ETerms.mem_varsLTerms : ∀ ts : ETerms, v ∈ ts.varsL ↔ v ∈ ts.vars
  | .nil => by simp [ETerms.varsL, ETerms.vars]
  | .cons e _ r => by
    simp [ETerms.varsL, ETerms.vars, mem_unionSortedDedup, Expr.mem_varsL e,
      ETerms.mem_varsLTerms r]

theorem EFactors.mem_varsLFactors : ∀ fs : EFactors, v ∈ fs.varsL ↔ v ∈ fs.vars
  | .nil => by simp [EFactors.varsL, EFactors.vars]
  | .cons b e r => by
    simp [EFactors.varsL, EFactors.vars, mem_unionSortedDedup, Expr.mem_varsL b,
      Expr.mem_varsL e, EFactors.mem_varsLFactors r, or_assoc]

theorem EList.mem_varsLList : ∀ as : EList, v ∈ as.varsL ↔ v ∈ as.vars
  | .nil => by simp [EList.varsL, EList.vars]
  | .cons e r => by
    simp [EList.varsL, EList.vars, mem_unionSortedDedup, Expr.mem_varsL e,
      EList.mem_varsLList r]
end

end VarsLLemmas

mutual
theorem Expr.sorted_varsL : ∀ e : Expr, e.varsL.Sorted (· < ·)
  | .const _ => by simp [Expr.varsL]
  | .var w => by simp [Expr.varsL]
  | .add _ ts => ETerms.sorted_varsLTerms ts
  | .mul _ fs => EFactors.sorted_varsLFactors fs
  | .pow b e => sorted_unionSortedDedup _ _ (Expr.sorted_varsL e)
  | .np _ as => EList.sorted_varsLList as

theorem ETerms.sorted_varsLTerms : ∀ ts : ETerms, ts.varsL.Sorted (· < ·)
  | .nil => by simp [ETerms.varsL]
  | .cons e _ r => sorted_unionSortedDedup _ _ (ETerms.sorted_varsLTerms r)

theorem EFactors.sorted_varsLFactors : ∀ fs : EFactors, fs.varsL.Sorted (· < ·)
  | .nil => by simp [EFactors.varsL]
  | .cons b e r =>
    sorted_unionSortedDedup _ _ (sorted_unionSortedDedup _ _ (EFactors.sorted_varsLFactors r))

theorem EList.sorted_varsLList : ∀ as : EList, as.varsL.Sorted (· < ·)
  | .nil => by simp [EList.varsL]
  | .cons e r => sorted_unionSortedDedup _ _ (EList.sorted_varsLList r)
end

/-- The position-assignment loop of the Variable Indexer: consecutive
positions starting at `start` (`vars(var_count++) = var`). -/
def indexSeq : List ℕ → ℕ → List (ℕ × ℕ)
  | [], _ => []
  | v :: rest, start => (v, start) :: indexSeq rest (start + 1)

/-- Embedded from the single-expression `ExtractVariablesFromExpression`: the
loop iterates `e.GetVariables()` — the external Variables set, whose
iteration order is by increasing variable id (the spec's "sorted order for
deterministic outputs") — assigning consecutive positions from 0. -/
def ExtractVariablesFromExpression (e : Expr) : List ℕ × List (ℕ × ℕ) :=
  (e.varsL, indexSeq e.varsL 0)

/-- The shared append loop of the Variable Indexer: each not-yet-indexed
variable of `ws` is appended to the sequence and indexed at the sequence's
length before the append (`try_emplace(var.get_id(), vars->size())`). -/
def extendVars (vlist : List ℕ) (m : List (ℕ × ℕ)) : List ℕ → List ℕ × List (ℕ × ℕ)
  | [] => (vlist, m)
  | w :: rest =>
    if (idxLookup m w).isSome then extendVars vlist m rest
    else extendVars (vlist ++ [w]) (m ++ [(w, vlist.length)]) rest

/-- Embedded from the vector overload of `ExtractVariablesFromExpression`:
rows are scanned in order and each row's variables are appended in the
iteration order of its variable set (increasing id). -/
def ExtractVariablesFromExpressionVec (es : List Expr) : List ℕ × List (ℕ × ℕ) :=
  es.foldl (fun acc e => extendVars acc.1 acc.2 e.varsL) ([], [])

/-- Embedded from `ExtractAndAppendVariablesFromExpression`: after the checked
precondition that the map and the sequence have equal sizes, the append loop
runs over the expression's variable set. -/
def ExtractAndAppendVariablesFromExpression (e : Expr) (vlist : List ℕ)
    (m : List (ℕ × ℕ)) : Option (List ℕ × List (ℕ × ℕ)) :=
  if m.length = vlist.length then some (extendVars vlist m e.varsL)
  else none


mutual
/-- Stated from the claim's words, not from the source (used to refute the
claimed ordering): the raw variable occurrences of a depth-first scan of the
expression tree. -/
def Expr.dfsScan : Expr → List ℕ
  | .const _ => []
  | .var v => [v]
  | .add _ ts => ts.dfsScan
  | .mul _ fs => fs.dfsScan
  | .pow b e => b.dfsScan ++ e.dfsScan
  | .np _ as => as.dfsScan

/-- Depth-first variable occurrences of the terms of an addition node. -/
def ETerms.dfsScan : ETerms → List ℕ
  | .nil => []
  | .cons e _ r => e.dfsScan ++ r.dfsScan

/-- Depth-first variable occurrences of the factors of a multiplication
node. -/
def EFactors.dfsScan : EFactors → List ℕ
  | .nil => []
  | .cons b e r => b.dfsScan ++ e.dfsScan ++ r.dfsScan

/-- Depth-first variable occurrences of an operand list. -/
def EList.dfsScan : EList → List ℕ
  | .nil => []
  | .cons e r => e.dfsScan ++ r.dfsScan
end

/-- Deduplication keeping first occurrences. -/
def firstOccur (seen : List ℕ) : List ℕ → List ℕ
  | [] => []
  | v :: rest =>
    if v ∈ seen then firstOccur seen rest else v :: firstOccur (seen ++ [v]) rest

/-- Stated from the claim's words, not from the source: the distinct free
variables in first-occurrence order of a depth-first scan. -/
def Expr.dfsVars (e : Expr) : List ℕ := firstOccur [] e.dfsScan

/-- The C9 counterexample input `x₂ + x₁` (the addition node lists the term
of `x₂` before the term of `x₁`). -/
def dfsCounterexampleInput : Expr := .add 0 (.cons (.var 2) 1 (.cons (.var 1) 1 .nil))

/-- C9 counterexample: on `x₂ + x₁` the code returns the variables in
increasing-id order `[1, 2]` — the iteration order of the external ordered
variable set — and not in the claimed depth-first first-occurrence order
`[2, 1]`. -/
theorem ExtractVariablesFromExpression_dfs_counterexample :
    (ExtractVariablesFromExpression dfsCounterexampleInput).1 = [1, 2] ∧
    dfsCounterexampleInput.dfsVars = [2, 1] ∧
    (ExtractVariablesFromExpression dfsCounterexampleInput).1 ≠
      dfsCounterexampleInput.dfsVars := by decide

theorem idxLookup_cons_self (v i : ℕ) (m : List (ℕ × ℕ)) :
    idxLookup ((v, i) :: m) v = some i := by
  simp [idxLookup, List.find?_cons]

theorem idxLookup_cons_ne (w v i : ℕ) (m : List (ℕ × ℕ)) (h : w ≠ v) :
    idxLookup ((w, i) :: m) v = idxLookup m v := by
  simp [idxLookup, List.find?_cons, h]

theorem idxLookup_append (v : ℕ) :
    ∀ m z : List (ℕ × ℕ), idxLookup (m ++ z) v =
      match idxLookup m v with
      | some i => some i
      | none => idxLookup z v
  | [], z => by simp [idxLookup]
  | (a, b) :: m, z => by
    by_cases h : a = v
    · subst h
      simp [idxLookup_cons_self]
    · rw [List.cons_append, idxLookup_cons_ne a v b _ h, idxLookup_cons_ne a v b m h]
      exact idxLookup_append v m z

theorem indexSeq_length : ∀ (vs : List ℕ) (s : ℕ), (indexSeq vs s).length = vs.length
  | [], _ => rfl
  | _ :: rest, s => by simp [indexSeq, indexSeq_length rest (s + 1)]

theorem indexSeq_append : ∀ (xs ys : List ℕ) (s : ℕ),
    indexSeq (xs ++ ys) s = indexSeq xs s ++ indexSeq ys (s + xs.length)
  | [], ys, s => by simp [indexSeq]
  | x :: rest, ys, s => by
    simp [indexSeq, indexSeq_append rest ys (s + 1)]
    congr 1
    omega

theorem idxLookup_indexSeq_none (v : ℕ) :
    ∀ (vs : List ℕ) (s : ℕ), v ∉ vs → idxLookup (indexSeq vs s) v = none
  | [], _, _ => rfl
  | w :: rest, s, h => by
    have hw : w ≠ v := fun he => h (by simp [he])
    rw [indexSeq, idxLookup_cons_ne w v s _ hw]
    exact idxLookup_indexSeq_none v rest (s + 1) (fun ht => h (by simp [ht]))

theorem idxLookup_indexSeq_isSome (v : ℕ) :
    ∀ (vs : List ℕ) (s : ℕ), v ∈ vs → (idxLookup (indexSeq vs s) v).isSome = true
  | [], _, h => by simp at h
  | w :: rest, s, h => by
    by_cases hw : w = v
    · subst hw
      rw [indexSeq, idxLookup_cons_self]
      rfl
    · rw [indexSeq, idxLookup_cons_ne w v s _ hw]
      exact idxLookup_indexSeq_isSome v rest (s + 1)
        (by rcases List.mem_cons.mp h with he | ht
            · exact absurd he.symm hw
            · exact ht)

theorem idxLookup_indexSeq_get :
    ∀ (vs : List ℕ) (s : ℕ), vs.Nodup → ∀ (i : ℕ) (h : i < vs.length),
      idxLookup (indexSeq vs s) (vs.get ⟨i, h⟩) = some (s + i)
  | [], _, _, i, h => by simp at h
  | w :: rest, s, hnd, 0, h => by
    simp only [List.get, indexSeq]
    simpa using idxLookup_cons_self w s _
  | w :: rest, s, hnd, i + 1, h => by
    simp only [List.get, indexSeq]
    have hget : rest.get ⟨i, by simpa using h⟩ ∈ rest := List.get_mem rest _ _
    have hw : w ≠ rest.get ⟨i, by simpa using h⟩ :=
      fun he => (List.nodup_cons.mp hnd).1 (he ▸ hget)
    rw [idxLookup_cons_ne w _ s _ hw]
    rw [idxLookup_indexSeq_get rest (s + 1) (List.nodup_cons.mp hnd).2 i (by simpa using h)]
    congr 1
    omega


/-- Characterization of the shared append loop: the sequence is extended by
exactly the not-yet-indexed variables of `ws` in scan order, each indexed at
the sequence length before its append; already-present entries are
untouched. -/
theorem extendVars_spec : ∀ (ws vlist : List ℕ) (m : List (ℕ × ℕ)),
    ∃ new : List ℕ,
      (extendVars vlist m ws).1 = vlist ++ new ∧
      (extendVars vlist m ws).2 = m ++ indexSeq new vlist.length ∧
      (∀ w ∈ new, idxLookup m w = none) ∧
      new.Nodup ∧
      (∀ w ∈ new, w ∈ ws) ∧
      (∀ w ∈ ws, (idxLookup m w).isSome = true ∨ w ∈ new) ∧
      ((∀ w ∈ ws, (idxLookup m w).isSome = true) → new = [])
  | [], vlist, m => ⟨[], by simp [extendVars, indexSeq]⟩
  | w :: rest, vlist, m => by
    by_cases hseen : (idxLookup m w).isSome = true
    · obtain ⟨new, h1, h2, h3, h4, h5, h6, h7⟩ := extendVars_spec rest vlist m
      refine ⟨new, ?_, ?_, h3, h4, fun u hu => by simp [h5 u hu], ?_, ?_⟩
      · simpa [extendVars, hseen] using h1
      · simpa [extendVars, hseen] using h2
      · intro u hu
        rcases List.mem_cons.mp hu with he | ht
        · exact Or.inl (he ▸ hseen)
        · exact h6 u ht
      · intro hall
        exact h7 fun u hu => hall u (by simp [hu])
    · obtain ⟨new, h1, h2, h3, h4, h5, h6, h7⟩ :=
        extendVars_spec rest (vlist ++ [w]) (m ++ [(w, vlist.length)])
      have hnone : idxLookup m w = none := by
        cases hcase : idxLookup m w with
        | none => rfl
        | some i => exact absurd (by simp [hcase]) hseen
      have hmem_new : ∀ u ∈ new, idxLookup m u = none ∧ u ≠ w := by
        intro u hu
        have := h3 u hu
        rw [idxLookup_append] at this
        constructor
        · cases hcase : idxLookup m u with
          | none => rfl
          | some i => simp [hcase] at this
        · intro he
          subst he
          rw [hnone] at this
          simp [idxLookup_cons_self] at this
      refine ⟨w :: new, ?_, ?_, ?_, ?_, ?_, ?_, ?_⟩
      · simpa [extendVars, hseen, List.append_assoc] using h1
      · simp only [extendVars]
        rw [if_neg hseen, h2, indexSeq, List.append_assoc]
        simp [List.length_append]
      · intro u hu
        rcases List.mem_cons.mp hu with he | ht
        · exact he ▸ hnone
        · exact (hmem_new u ht).1
      · exact List.nodup_cons.mpr ⟨fun hw => (hmem_new w hw).2 rfl, h4⟩
      · intro u hu
        rcases List.mem_cons.mp hu with he | ht
        · simp [he]
        · simp [h5 u ht]
      · intro u hu
        rcases List.mem_cons.mp hu with he | ht
        · exact Or.inr (by simp [he])
        · rcases h6 u ht with hs | hn
          · rw [idxLookup_append] at hs
            cases hcase : idxLookup m u with
            | some i => exact Or.inl (by simp [hcase])
            | none =>
              rw [hcase] at hs
              simp only at hs
              by_cases huw : u = w
              · exact Or.inr (by simp [huw])
              · rw [idxLookup_cons_ne w u _ _ (Ne.symm huw)] at hs
                simp [idxLookup] at hs
          · exact Or.inr (by simp [hn])
      · intro hall
        exact absurd (hall w (by simp)) hseen


theorem idxLookup_indexSeq_mem {v : ℕ} {vs : List ℕ} {s : ℕ}
    (h : (idxLookup (indexSeq vs s) v).isSome = true) : v ∈ vs := by
  by_contra hn
  rw [idxLookup_indexSeq_none v vs s hn] at h
  simp at h

/-- Invariant of the vector driver's fold: the map stays the canonical
position map of the sequence, the sequence stays duplicate-free, and its
members are the starting members plus the scanned rows' variables. -/
theorem vecFold_inv : ∀ (es : List Expr) (vlist : List ℕ) (m : List (ℕ × ℕ)),
    m = indexSeq vlist 0 → vlist.Nodup →
    ((es.foldl (fun acc e => extendVars acc.1 acc.2 e.varsL) (vlist, m)).2
        = indexSeq (es.foldl (fun acc e => extendVars acc.1 acc.2 e.varsL) (vlist, m)).1 0) ∧
    (es.foldl (fun acc e => extendVars acc.1 acc.2 e.varsL) (vlist, m)).1.Nodup ∧
    (∀ v, v ∈ (es.foldl (fun acc e => extendVars acc.1 acc.2 e.varsL) (vlist, m)).1 ↔
      v ∈ vlist ∨ ∃ e ∈ es, v ∈ e.vars)
  | [], vlist, m, hm, hnd => ⟨by simpa using hm, hnd, by simp⟩
  | e :: rest, vlist, m, hm, hnd => by
    obtain ⟨new, h1, h2, h3, h4, h5, h6, _⟩ := extendVars_spec e.varsL vlist m
    have hdisj : ∀ w ∈ new, w ∉ vlist := by
      intro w hw hmem
      have := idxLookup_indexSeq_isSome w vlist 0 hmem
      rw [← hm] at this
      rw [h3 w hw] at this
      simp at this
    have hnd2 : (vlist ++ new).Nodup := by
      rw [List.nodup_append]
      exact ⟨hnd, h4, fun a ha hb => hdisj a hb ha⟩
    have hm2 : m ++ indexSeq new vlist.length = indexSeq (vlist ++ new) 0 := by
      rw [indexSeq_append, ← hm]
      simp
    have step : extendVars vlist m e.varsL = (vlist ++ new, indexSeq (vlist ++ new) 0) := by
      rw [← hm2]
      exact Prod.ext h1 h2
    obtain ⟨i1, i2, i3⟩ := vecFold_inv rest (vlist ++ new) (indexSeq (vlist ++ new) 0)
      rfl hnd2
    simp only [List.foldl_cons, step]
    refine ⟨i1, i2, fun v => ?_⟩
    rw [i3 v]
    constructor
    · rintro (hv | hv)
      · rcases List.mem_append.mp hv with ha | hb
        · exact Or.inl ha
        · exact Or.inr ⟨e, by simp, (Expr.mem_varsL v e).mp (h5 v hb)⟩
      · obtain ⟨f, hf, hvf⟩ := hv
        exact Or.inr ⟨f, by simp [hf], hvf⟩
    · rintro (hv | ⟨f, hf, hvf⟩)
      · exact Or.inl (List.mem_append.mpr (Or.inl hv))
      · rcases List.mem_cons.mp hf with he | ht
        · subst he
          rcases h6 v ((Expr.mem_varsL v f).mpr hvf) with hs | hn
          · rw [hm] at hs
            exact Or.inl (List.mem_append.mpr (Or.inl (idxLookup_indexSeq_mem hs)))
          · exact Or.inl (List.mem_append.mpr (Or.inr hn))
        · exact Or.inr ⟨f, ht, hvf⟩


/-- C9 (amended): the Variable Indexer returns, for a single expression, the
distinct free variables in increasing variable-id order (the iteration order
of the external ordered variable set) with the map sending each variable to
its position; for a sequence of expressions, a duplicate-free sequence
containing exactly the rows' free variables (rows scanned in order, each
row's new variables in increasing-id order) with the canonical position
map. -/
theorem ExtractVariablesFromExpression_spec :
    (∀ e : Expr,
      (ExtractVariablesFromExpression e).1.Sorted (· < ·) ∧
      (∀ v, v ∈ (ExtractVariablesFromExpression e).1 ↔ v ∈ e.vars) ∧
      (ExtractVariablesFromExpression e).2
        = indexSeq (ExtractVariablesFromExpression e).1 0 ∧
      (∀ (i : ℕ) (h : i < (ExtractVariablesFromExpression e).1.length),
        idxLookup (ExtractVariablesFromExpression e).2
          ((ExtractVariablesFromExpression e).1.get ⟨i, h⟩) = some i)) ∧
    (∀ es : List Expr,
      (ExtractVariablesFromExpressionVec es).1.Nodup ∧
      (∀ v, v ∈ (ExtractVariablesFromExpressionVec es).1 ↔ ∃ e ∈ es, v ∈ e.vars) ∧
      (ExtractVariablesFromExpressionVec es).2
        = indexSeq (ExtractVariablesFromExpressionVec es).1 0 ∧
      (∀ (i : ℕ) (h : i < (ExtractVariablesFromExpressionVec es).1.length),
        idxLookup (ExtractVariablesFromExpressionVec es).2
          ((ExtractVariablesFromExpressionVec es).1.get ⟨i, h⟩) = some i)) := by
  constructor
  · intro e
    have hsorted : (ExtractVariablesFromExpression e).1.Sorted (· < ·) :=
      Expr.sorted_varsL e
    have hnd : (ExtractVariablesFromExpression e).1.Nodup := hsorted.nodup
    refine ⟨hsorted, fun v => Expr.mem_varsL v e, rfl, fun i h => ?_⟩
    simpa using idxLookup_indexSeq_get (ExtractVariablesFromExpression e).1 0 hnd i h
  · intro es
    obtain ⟨h1, h2, h3⟩ := vecFold_inv es [] [] rfl (by simp)
    have h1b : (ExtractVariablesFromExpressionVec es).2
        = indexSeq (ExtractVariablesFromExpressionVec es).1 0 := h1
    have h2b : (ExtractVariablesFromExpressionVec es).1.Nodup := h2
    have h3b : ∀ v, v ∈ (ExtractVariablesFromExpressionVec es).1 ↔
        v ∈ ([] : List ℕ) ∨ ∃ e ∈ es, v ∈ e.vars := h3
    refine ⟨h2b, fun v => by simpa using h3b v, h1b, fun i h => ?_⟩
    have := idxLookup_indexSeq_get (ExtractVariablesFromExpressionVec es).1 0 h2b i h
    rw [← h1b] at this
    simpa using this

/-- Closed witness for C9 (amended) at `x₂ + x₁` and at the row list
`[x₂ + x₁, x₀]`: position lookups hit the assigned indices. -/
theorem ExtractVariablesFromExpression_spec_witness :
    idxLookup (ExtractVariablesFromExpression dfsCounterexampleInput).2
      ((ExtractVariablesFromExpression dfsCounterexampleInput).1.get ⟨1, by decide⟩)
      = some 1 ∧
    idxLookup (ExtractVariablesFromExpressionVec [dfsCounterexampleInput, .var 0]).2
      ((ExtractVariablesFromExpressionVec [dfsCounterexampleInput, .var 0]).1.get
        ⟨2, by decide⟩) = some 2 :=
  ⟨(ExtractVariablesFromExpression_spec.1 dfsCounterexampleInput).2.2.2 1 (by decide),
   (ExtractVariablesFromExpression_spec.2 [dfsCounterexampleInput, .var 0]).2.2.2 2
     (by decide)⟩

/-- C10: under the checked equal-sizes precondition,
`ExtractAndAppendVariablesFromExpression` succeeds; the map's size equals the
sequence's length afterwards; the position of an already-indexed variable
never changes; the newly encountered variables are appended, each indexed at
the sequence length before its append; and a call whose expression contains
only already-indexed variables leaves the sequence and the map unchanged. -/
theorem ExtractAndAppendVariablesFromExpression_spec (e : Expr) (vlist : List ℕ)
    (m : List (ℕ × ℕ)) (hlen : m.length = vlist.length) :
    ∃ vlist2 m2 new,
      ExtractAndAppendVariablesFromExpression e vlist m = some (vlist2, m2) ∧
      vlist2 = vlist ++ new ∧
      m2 = m ++ indexSeq new vlist.length ∧
      m2.length = vlist2.length ∧
      (∀ v i, idxLookup m v = some i → idxLookup m2 v = some i) ∧
      (∀ w ∈ new, idxLookup m w = none) ∧
      ((∀ w ∈ e.varsL, (idxLookup m w).isSome = true) → vlist2 = vlist ∧ m2 = m) := by
  obtain ⟨new, h1, h2, h3, _, _, _, h7⟩ := extendVars_spec e.varsL vlist m
  refine ⟨(extendVars vlist m e.varsL).1, (extendVars vlist m e.varsL).2, new, ?_,
    h1, h2, ?_, ?_, h3, ?_⟩
  · simp [ExtractAndAppendVariablesFromExpression, hlen]
  · rw [h1, h2]
    simp [indexSeq_length, hlen]
  · intro v i hv
    rw [h2, idxLookup_append, hv]
  · intro hall
    have hnew := h7 hall
    subst hnew
    rw [h1, h2]
    simp [indexSeq]

/-- Closed witness for C10: appending `x₅` to the sequence `[x₃]` indexed by
`x₃ ↦ 0`. -/
theorem ExtractAndAppendVariablesFromExpression_spec_witness :
    ∃ vlist2 m2 new,
      ExtractAndAppendVariablesFromExpression (.var 5) [3] [(3, 0)] = some (vlist2, m2) ∧
      vlist2 = [3] ++ new ∧
      m2 = [(3, 0)] ++ indexSeq new 1 ∧
      m2.length = vlist2.length ∧
      (∀ v i, idxLookup [(3, 0)] v = some i → idxLookup m2 v = some i) ∧
      (∀ w ∈ new, idxLookup [(3, 0)] w = none) ∧
      ((∀ w ∈ (Expr.var 5).varsL, (idxLookup [(3, 0)] w).isSome = true) →
        vlist2 = [3] ∧ m2 = [(3, 0)]) :=
  ExtractAndAppendVariablesFromExpression_spec (.var 5) [3] [(3, 0)] (by decide)


/-- Whether a node avoids mixing parameter and state variables: its variables
are all parameters, or none are. -/
def mixedFree (P : Finset ℕ) (e : Expr) : Bool :=
  decide (e.vars ⊆ P) || decide (e.vars ∩ P = ∅)

mutual
/-- The separability condition of the claim, read off the expression tree: a
power node or an opaque nonlinear node must draw its variables entirely from
the parameters or entirely from the non-parameters; additions check their
terms, multiplications their base/exponent factors (a factor with exponent
literally 1 as its base, any other as a power node), and leaves are always
separable. -/
def SeparableOK (P : Finset ℕ) : Expr → Bool
  | .const _ => true
  | .var _ => true
  | .add _ ts => ts.sepOK P
  | .mul _ fs => fs.sepOK P
  | .pow b ex => mixedFree P (.pow b ex)
  | .np k as => mixedFree P (.np k as)

/-- Separability of the terms of an addition node. -/
def ETerms.sepOK (P : Finset ℕ) : ETerms → Bool
  | .nil => true
  | .cons e _ r => SeparableOK P e && r.sepOK P

/-- Separability of the factors of a multiplication node. -/
def EFactors.sepOK (P : Finset ℕ) : EFactors → Bool
  | .nil => true
  | .cons b ex r =>
    (if ex.isOne then SeparableOK P b else mixedFree P (.pow b ex)) && r.sepOK P
end

theorem exceptBind_error {ε α β : Type} (e : ε) (g : α → Except ε β) :
    (Except.error e >>= g) = Except.error e := rfl

theorem exceptBind_ok {ε α β : Type} (a : α) (g : α → Except ε β) :
    (Except.ok a >>= g) = g a := rfl

theorem exceptIsOk_error {ε α : Type} (e : ε) :
    (Except.error e : Except ε α).isOk = false := rfl

theorem exceptIsOk_ok {ε α : Type} (a : α) : (Except.ok a : Except ε α).isOk = true := rfl

theorem visitPow_isOk (e exponent : Expr) (P : Finset ℕ) :
    (visitPow e exponent P).isOk = mixedFree P e := by
  unfold visitPow mixedFree
  split_ifs <;> simp_all [Except.isOk, Except.toBool]

theorem visitNonPolynomialTerm_isOk (e : Expr) (P : Finset ℕ) :
    (visitNonPolynomialTerm e P).isOk = mixedFree P e := by
  unfold visitNonPolynomialTerm mixedFree
  split_ifs <;> simp_all [Except.isOk, Except.toBool]

mutual
theorem Visit_isOk : ∀ (e : Expr) (P : Finset ℕ), (Visit e P).isOk = SeparableOK P e
  | .const _, P => rfl
  | .var v, P => by
    unfold Visit SeparableOK
    split <;> rfl
  | .add c ts, P => by
    unfold Visit SeparableOK
    rw [← VisitTerms_isOk ts P [] (.const c)]
    cases VisitTerms ts P [] (.const c) <;> rfl
  | .mul c fs, P => by
    unfold Visit SeparableOK
    exact VisitFactors_isOk fs P ⟨[], .const c⟩
  | .pow b ex, P => by
    unfold Visit SeparableOK
    exact visitPow_isOk (.pow b ex) ex P
  | .np k as, P => by
    unfold Visit SeparableOK
    exact visitNonPolynomialTerm_isOk (.np k as) P

theorem VisitTerms_isOk : ∀ (ts : ETerms) (P : Finset ℕ) (m : List (Expr × Expr))
    (w0 : Expr), (VisitTerms ts P m w0).isOk = ts.sepOK P
  | .nil, P, m, w0 => rfl
  | .cons e c r, P, m, w0 => by
    unfold VisitTerms ETerms.sepOK
    have h := Visit_isOk e P
    cases hv : Visit e P with
    | error err =>
      rw [hv, exceptIsOk_error] at h
      rw [exceptBind_error, exceptIsOk_error, ← h]
      simp
    | ok f =>
      rw [hv, exceptIsOk_ok] at h
      rw [exceptBind_ok, ← h]
      simp only [Bool.true_and]
      exact VisitTerms_isOk r P _ _

theorem VisitFactors_isOk : ∀ (fs : EFactors) (P : Finset ℕ) (f : LF),
    (VisitFactors fs P f).isOk = fs.sepOK P
  | .nil, P, f => rfl
  | .cons b ex r, P, f => by
    unfold VisitFactors EFactors.sepOK
    by_cases hone : ex.isOne = true
    · simp only [hone, if_true]
      have h := Visit_isOk b P
      cases hv : Visit b P with
      | error err =>
        rw [hv, exceptIsOk_error] at h
        rw [exceptBind_error, exceptIsOk_error, ← h]
        simp
      | ok g =>
        rw [hv, exceptIsOk_ok] at h
        rw [exceptBind_ok, ← h]
        simp only [Bool.true_and]
        exact VisitFactors_isOk r P _
    · simp only [hone, if_false, Bool.false_eq_true]
      have h := visitPow_isOk (.pow b ex) ex P
      cases hv : visitPow (.pow b ex) ex P with
      | error err =>
        rw [hv, exceptIsOk_error] at h
        rw [exceptBind_error, exceptIsOk_error, ← h]
        simp
      | ok g =>
        rw [hv, exceptIsOk_ok] at h
        rw [exceptBind_ok, ← h]
        simp only [Bool.true_and]
        exact VisitFactors_isOk r P _
end


/-- The vector driver aborts exactly when some row is not separable after
expansion, with no partial result. -/
theorem driverLoop_isOk (n : ℕ) (P : Finset ℕ) :
    ∀ (es : List Expr) (i : ℕ) (m : List (Expr × List Expr)) (w0s : List Expr),
      (driverLoop n P es i m w0s).isOk = es.all fun e => SeparableOK P e.Expand
  | [], _, _, _ => rfl
  | e :: rest, i, m, w0s => by
    unfold driverLoop
    have h : (Decompose e P).isOk = SeparableOK P e.Expand := Visit_isOk e.Expand P
    cases hv : Decompose e P with
    | error err =>
      rw [hv, exceptIsOk_error] at h
      rw [exceptBind_error, exceptIsOk_error, List.all_cons, ← h]
      simp
    | ok f =>
      rw [hv, exceptIsOk_ok] at h
      rw [exceptBind_ok, List.all_cons, ← h]
      simp only [Bool.true_and]
      exact driverLoop_isOk n P rest _ _ _

/-- C4: the lumped-parameter factorizer fails exactly when a power node or an
opaque nonlinear node mixes parameter and state variables — a scalar visit
succeeds precisely on separable expressions, the public vector driver
succeeds precisely when every expanded row is separable (so any failure
aborts the whole decomposition with no partial result), a mixed power with a
constant exponent fails with `UnsupportedMixedPower`, a mixed power with a
non-constant exponent fails with `NonSeparablePower`, and a mixed opaque
nonlinear term of any of the 21 delegated operator kinds fails with
`NonSeparableNonlinearTerm` carrying the offending sub-expression. -/
theorem lumpedParameters_failure_spec :
    (∀ (e : Expr) (P : Finset ℕ), (Visit e P).isOk = SeparableOK P e) ∧
    (∀ (f : List Expr) (P : Finset ℕ),
      (DecomposeLumpedParameters f P).isOk = f.all fun e => SeparableOK P e.Expand) ∧
    (∀ (b ex : Expr) (P : Finset ℕ), ¬(Expr.pow b ex).vars ⊆ P →
      (Expr.pow b ex).vars ∩ P ≠ ∅ → ex.isConst = true →
      Visit (.pow b ex) P = .error (.unsupportedMixedPower (.pow b ex))) ∧
    (∀ (b ex : Expr) (P : Finset ℕ), ¬(Expr.pow b ex).vars ⊆ P →
      (Expr.pow b ex).vars ∩ P ≠ ∅ → ex.isConst = false →
      Visit (.pow b ex) P = .error (.nonSeparablePower (.pow b ex))) ∧
    (∀ (k : NPKind) (as : EList) (P : Finset ℕ), ¬(Expr.np k as).vars ⊆ P →
      (Expr.np k as).vars ∩ P ≠ ∅ →
      Visit (.np k as) P = .error (.nonSeparableNonlinearTerm (.np k as))) := by
  refine ⟨Visit_isOk, ?_, ?_, ?_, ?_⟩
  · intro f P
    unfold DecomposeLumpedParameters
    have h := driverLoop_isOk f.length P f 0 [] []
    cases hv : driverLoop f.length P f 0 [] [] with
    | error err =>
      rw [hv, exceptIsOk_error] at h
      rw [exceptBind_error, exceptIsOk_error, h]
    | ok r =>
      rw [hv, exceptIsOk_ok] at h
      rw [exceptBind_ok, ← h]
      rfl
  · intro b ex P h1 h2 h3
    unfold Visit visitPow
    rw [if_neg h1, if_neg h2, if_pos h3]
  · intro b ex P h1 h2 h3
    unfold Visit visitPow
    rw [if_neg h1, if_neg h2, if_neg (by simp [h3])]
  · intro k as P h1 h2
    unfold Visit visitNonPolynomialTerm
    rw [if_neg h1, if_neg h2]

/-- Closed witness for C4: `sin(x₀·x₁)` with parameter `x₁` fails with
`NonSeparableNonlinearTerm`, `(x₀+x₁)²` with parameter `x₁` fails with
`UnsupportedMixedPower`, and `x₀^x₁` with parameter `x₁` fails with
`NonSeparablePower`. -/
theorem lumpedParameters_failure_spec_witness :
    Visit (.np .sin (.cons (.mul 1 (.cons (.var 0) (.const 1)
        (.cons (.var 1) (.const 1) .nil))) .nil)) ({1} : Finset ℕ)
      = .error (.nonSeparableNonlinearTerm (.np .sin (.cons (.mul 1 (.cons (.var 0)
        (.const 1) (.cons (.var 1) (.const 1) .nil))) .nil))) ∧
    Visit (.pow (.add 0 (.cons (.var 0) 1 (.cons (.var 1) 1 .nil))) (.const 2))
        ({1} : Finset ℕ)
      = .error (.unsupportedMixedPower (.pow (.add 0 (.cons (.var 0) 1
        (.cons (.var 1) 1 .nil))) (.const 2))) ∧
    Visit (.pow (.var 0) (.var 1)) ({1} : Finset ℕ)
      = .error (.nonSeparablePower (.pow (.var 0) (.var 1))) :=
  ⟨lumpedParameters_failure_spec.2.2.2.2 .sin _ {1} (by decide) (by decide),
   lumpedParameters_failure_spec.2.2.1 _ _ {1} (by decide) (by decide) (by decide),
   lumpedParameters_failure_spec.2.2.2.1 _ _ {1} (by decide) (by decide) (by decide)⟩


/-- Keys of the driver's α-keyed map, in order. -/
def amapKeys (m : List (Expr × List Expr)) : List Expr := m.map fun kv => kv.1

/-- Sortedness of the α-keyed map by the total order's code. -/
def amapSorted (m : List (Expr × List Expr)) : Prop :=
  (m.map fun kv => kv.1.enc).Sorted (· ≤ ·)

/-- The α-keyed insertion keeps the map sorted by the total order, keeps its
keys duplicate-free, and only ever adds the inserted key. -/
theorem amapInsert_inv (n i : ℕ) (k w : Expr) :
    ∀ m : List (Expr × List Expr), amapSorted m → (amapKeys m).Nodup →
      amapSorted (amapInsert n i k w m) ∧ (amapKeys (amapInsert n i k w m)).Nodup ∧
      ∀ a, a ∈ amapKeys (amapInsert n i k w m) ↔ a = k ∨ a ∈ amapKeys m
  | [], _, _ => by simp [amapInsert, amapSorted, amapKeys]
  | (k1, c1) :: rest, hs, hnd => by
    have hs1 : amapSorted rest := by
      unfold amapSorted at hs ⊢
      exact (List.sorted_cons.mp hs).2
    have hhead : ∀ x ∈ rest.map fun kv => kv.1.enc, k1.enc ≤ x := by
      intro x hx
      exact (List.sorted_cons.mp hs).1 x hx
    have hnd1 : (amapKeys rest).Nodup := (List.nodup_cons.mp hnd).2
    have hk1notin : k1 ∉ amapKeys rest := (List.nodup_cons.mp hnd).1
    unfold amapInsert
    by_cases he : k = k1
    · simp only [he, if_true]
      refine ⟨hs, hnd, fun a => ?_⟩
      simp only [amapKeys, List.map_cons, List.mem_cons, he]
      tauto
    · simp only [he, if_false]
      by_cases hlt : k.enc < k1.enc
      · simp only [hlt, if_true]
        refine ⟨?_, ?_, fun a => by
          simp only [amapKeys, List.map_cons, List.mem_cons]⟩
        · unfold amapSorted at hs ⊢
          simp only [List.map_cons, List.sorted_cons] at hs ⊢
          exact ⟨fun x hx => by
            rcases List.mem_cons.mp hx with hh | ht
            · omega
            · have := hhead x ht; omega, hs⟩
        · refine List.nodup_cons.mpr ⟨?_, hnd⟩
          intro hk
          rcases List.mem_cons.mp hk with hh | ht
          · exact he hh
          · simp only [amapKeys] at ht
            obtain ⟨kv, hkv, hkve⟩ := List.mem_map.mp ht
            have hke : k.enc ∈ rest.map fun kv => kv.1.enc :=
              List.mem_map.mpr ⟨kv, hkv, by rw [hkve]⟩
            have := hhead _ hke
            omega
      · simp only [hlt, if_false]
        obtain ⟨i1, i2, i3⟩ := amapInsert_inv n i k w rest hs1 hnd1
        refine ⟨?_, ?_, fun a => ?_⟩
        · unfold amapSorted at i1 ⊢
          simp only [List.map_cons, List.sorted_cons]
          refine ⟨?_, i1⟩
          intro x hx
          obtain ⟨kv, hkv, hxe⟩ := List.mem_map.mp hx
          have : kv.1 ∈ amapKeys (amapInsert n i k w rest) :=
            List.mem_map_of_mem _ hkv
          rcases (i3 kv.1).mp this with hk | hin
          · subst hxe; rw [hk]; omega
          · exact hxe ▸ hhead kv.1.enc (by
              simp only [amapKeys] at hin
              obtain ⟨kv2, hkv2, hkve⟩ := List.mem_map.mp hin
              exact hkve ▸ List.mem_map_of_mem _ hkv2)
        · refine List.nodup_cons.mpr ⟨?_, i2⟩
          intro hk
          rcases (i3 k1).mp hk with hh | ht
          · exact he hh.symm
          · exact hk1notin ht
        · simp only [amapKeys, List.map_cons, List.mem_cons]
          have := i3 a
          simp only [amapKeys] at this
          rw [this]
          tauto

/-- Inserting a row's pairs preserves the α-map invariants. -/
theorem amapInsertRow_inv (n i : ℕ) :
    ∀ (prs : List (Expr × Expr)) (m : List (Expr × List Expr)),
      amapSorted m → (amapKeys m).Nodup →
      amapSorted (amapInsertRow n i prs m) ∧ (amapKeys (amapInsertRow n i prs m)).Nodup
  | [], m, hs, hnd => ⟨hs, hnd⟩
  | (w, a) :: rest, m, hs, hnd => by
    obtain ⟨i1, i2, _⟩ := amapInsert_inv n i a w m hs hnd
    exact amapInsertRow_inv n i rest _ i1 i2

/-- The driver loop preserves the α-map invariants. -/
theorem driverLoop_inv (n : ℕ) (P : Finset ℕ) :
    ∀ (es : List Expr) (i : ℕ) (m : List (Expr × List Expr)) (w0s : List Expr)
      (r : List (Expr × List Expr) × List Expr),
      amapSorted m → (amapKeys m).Nodup →
      driverLoop n P es i m w0s = .ok r →
      amapSorted r.1 ∧ (amapKeys r.1).Nodup
  | [], i, m, w0s, r, hs, hnd, h => by
    unfold driverLoop at h
    cases h
    exact ⟨hs, hnd⟩
  | e :: rest, i, m, w0s, r, hs, hnd, h => by
    unfold driverLoop at h
    cases hv : Decompose e P with
    | error err => rw [hv, exceptBind_error] at h; exact Except.noConfusion h
    | ok f =>
      rw [hv, exceptBind_ok] at h
      obtain ⟨i1, i2⟩ := amapInsertRow_inv n i f.terms m hs hnd
      exact driverLoop_inv n P rest _ _ _ _ i1 i2 h

/-- The C2 example rows `x₀·x₂` and `x₁·x₂` (parameter `x₂`). -/
def sharedColRow1 : Expr := .mul 1 (.cons (.var 0) (.const 1) (.cons (.var 2) (.const 1) .nil))

/-- Second row of the C2 example. -/
def sharedColRow2 : Expr := .mul 1 (.cons (.var 1) (.const 1) (.cons (.var 2) (.const 1) .nil))

/-- C2: the vector driver shares one basis column per structurally identical
parameter sub-expression — dedup by the α key through the ordered map — so
the returned basis never repeats an element; and on `[x₀·p, x₁·p]` with
parameter `p = x₂` it returns the single shared basis column:
`W = [[x₀], [x₁]]`, `α = [p]`, `w0 = [0, 0]`. -/
theorem DecomposeLumpedParameters_shared_basis :
    (∀ (f : List Expr) (P : Finset ℕ) (W : List (List Expr)) (alpha w0 : List Expr),
      DecomposeLumpedParameters f P = .ok (W, alpha, w0) → alpha.Nodup) ∧
    DecomposeLumpedParameters [sharedColRow1, sharedColRow2] {2}
      = .ok ([[.var 0], [.var 1]], [.var 2], [.const 0, .const 0]) := by
  constructor
  · intro f P W alpha w0 h
    unfold DecomposeLumpedParameters at h
    cases hv : driverLoop f.length P f 0 [] [] with
    | error err => rw [hv, exceptBind_error] at h; exact Except.noConfusion h
    | ok r =>
      obtain ⟨_, hnd⟩ := driverLoop_inv f.length P f 0 [] [] r
        (by simp [amapSorted]) (by simp [amapKeys]) hv
      rw [hv, exceptBind_ok] at h
      have halpha : alpha = r.1.map fun kv => kv.1 := by
        cases h
        rfl
      rw [halpha]
      exact hnd
  · decide

/-- Closed witness for C2's duplicate-freeness at the example input. -/
theorem DecomposeLumpedParameters_shared_basis_witness :
    ([Expr.var 2] : List Expr).Nodup :=
  DecomposeLumpedParameters_shared_basis.1 [sharedColRow1, sharedColRow2] {2}
    [[.var 0], [.var 1]] [.var 2] [.const 0, .const 0] (by decide)


/-- C3: decomposing the single expression `a·p₁ + b·p₁` with distinct state
variables `a < b` and parameter `p₁` merges the two terms into a single
column: one weight `a + b` paired with the single basis element `α = p₁`, not
two separate (weight, α) entries; the second conjunct records the mechanism —
the scalar visitor's weight-keyed addition map still holds the two separate
pairs `(a, p₁)` and `(b, p₁)` (their weight keys differ), and it is the
vector driver's α-keyed map that merges them. -/
theorem DecomposeLumpedParameters_merges_terms (a b p : ℕ)
    (hab : a < b) (hap : a ≠ p) (hbp : b ≠ p) :
    DecomposeLumpedParameters
      [.add 0 (.cons (.mul 1 (.cons (.var a) (.const 1) (.cons (.var p) (.const 1) .nil))) 1
        (.cons (.mul 1 (.cons (.var b) (.const 1) (.cons (.var p) (.const 1) .nil))) 1 .nil))]
      {p}
      = .ok ([[.add 0 (.cons (.var a) 1 (.cons (.var b) 1 .nil))]], [.var p], [.const 0]) ∧
    Decompose
      (.add 0 (.cons (.mul 1 (.cons (.var a) (.const 1) (.cons (.var p) (.const 1) .nil))) 1
        (.cons (.mul 1 (.cons (.var b) (.const 1) (.cons (.var p) (.const 1) .nil))) 1 .nil)))
      {p}
      = .ok ⟨[(.var a, .var p), (.var b, .var p)], .const 0⟩ := by
  have hA : (a ∈ ({p} : Finset ℕ)) = False := by simp [hap]
  have hB : (b ∈ ({p} : Finset ℕ)) = False := by simp [hbp]
  have hP : (p ∈ ({p} : Finset ℕ)) = True := by simp
  have hBA : (Expr.var b = Expr.var a) = False := by simp [Ne.symm (Nat.ne_of_lt hab)]
  have hENC : ((Expr.var b).enc < (Expr.var a).enc) = False := by
    simp only [Expr.enc, eq_iff_iff, iff_false, not_lt]
    exact le_of_lt (Nat.pair_lt_pair_right 1 hab)
  constructor
  · simp only [DecomposeLumpedParameters, driverLoop, Decompose, Expr.Expand,
      ETerms.expandSum, EFactors.expandProd, Expr.dmul, Expr.dmulNA, Expr.smul, Expr.qmul,
      Expr.sadd, Visit, VisitTerms, VisitFactors, visitPow, visitNonPolynomialTerm,
      simpleMultiplication, wmapInsertAll, wmapInsert, amapInsertRow, amapInsert, colAdd,
      Expr.isZero, Expr.isOne, Expr.isConst, hA, hB, hP, hBA, hENC,
      List.map_cons, List.map_nil, List.flatMap, List.set, List.getD, List.replicate,
      List.range, List.length, exceptBind_ok, exceptBind_error,
      if_true, if_false, zero_add, add_zero, one_ne_zero, ite_true, ite_false,
      decide_eq_true_eq, reduceIte]
    simp [show List.range.loop 1 [] = [0] from rfl]
  · simp only [Decompose, Expr.Expand, ETerms.expandSum, EFactors.expandProd, Expr.dmul,
      Expr.dmulNA, Expr.smul, Expr.qmul, Expr.sadd, Visit, VisitTerms, VisitFactors,
      visitPow, visitNonPolynomialTerm, simpleMultiplication, wmapInsertAll, wmapInsert,
      Expr.isZero, Expr.isOne, Expr.isConst, hA, hB, hP, hBA, hENC,
      List.map_cons, List.map_nil, List.flatMap, exceptBind_ok, exceptBind_error,
      if_true, if_false, zero_add, add_zero, one_ne_zero, ite_true, ite_false,
      decide_eq_true_eq, reduceIte]

/-- Closed witness for C3 at `x₀·x₂ + x₁·x₂` with parameter `x₂`. -/
theorem DecomposeLumpedParameters_merges_terms_witness :
    DecomposeLumpedParameters
      [.add 0 (.cons (.mul 1 (.cons (.var 0) (.const 1) (.cons (.var 2) (.const 1) .nil))) 1
        (.cons (.mul 1 (.cons (.var 1) (.const 1) (.cons (.var 2) (.const 1) .nil))) 1 .nil))]
      {2}
      = .ok ([[.add 0 (.cons (.var 0) 1 (.cons (.var 1) 1 .nil))]], [.var 2], [.const 0]) ∧
    Decompose
      (.add 0 (.cons (.mul 1 (.cons (.var 0) (.const 1) (.cons (.var 2) (.const 1) .nil))) 1
        (.cons (.mul 1 (.cons (.var 1) (.const 1) (.cons (.var 2) (.const 1) .nil))) 1 .nil)))
      {2}
      = .ok ⟨[(.var 0, .var 2), (.var 1, .var 2)], .const 0⟩ :=
  DecomposeLumpedParameters_merges_terms 0 1 2 (by decide) (by decide) (by decide)


section RoundTrip

variable (I : NPKind → List ℤ → ℤ) (pw : ℤ → ℤ → ℤ) (env : ℕ → ℤ)

/-- The value `Σᵢ Wᵢ·αᵢ` of a list of weight/basis pairs. -/
def dotSum (prs : List (Expr × Expr)) : ℤ :=
  (prs.map fun wa => wa.1.eval I pw env * wa.2.eval I pw env).sum

/-- The value `Σᵢ Wᵢ·αᵢ + w0` of a factorization triple. -/
def lfSem (r : LF) : ℤ := dotSum I pw env r.terms + r.w0.eval I pw env

theorem dotSum_append (xs ys : List (Expr × Expr)) :
    dotSum I pw env (xs ++ ys) = dotSum I pw env xs + dotSum I pw env ys := by
  simp [dotSum]

theorem wmapInsert_sum (k v : Expr) :
    ∀ m : List (Expr × Expr), dotSum I pw env (wmapInsert k v m)
      = k.eval I pw env * v.eval I pw env + dotSum I pw env m
  | [] => by simp [wmapInsert, dotSum, Expr.eval_sadd, Expr.eval]
  | (k1, v1) :: rest => by
    unfold wmapInsert
    by_cases he : k = k1
    · subst he
      simp only [if_true, dotSum, List.map_cons, List.sum_cons, Expr.eval_sadd]
      ring
    · simp only [he, if_false]
      by_cases hlt : k.enc < k1.enc
      · simp only [hlt, if_true, dotSum, List.map_cons, List.sum_cons, Expr.eval_sadd,
          Expr.eval]
        ring
      · simp only [hlt, if_false, dotSum, List.map_cons, List.sum_cons]
        have := wmapInsert_sum k v rest
        unfold dotSum at this
        rw [this]
        ring

theorem wmapInsertAll_sum (c : ℤ) :
    ∀ (prs m : List (Expr × Expr)), dotSum I pw env (wmapInsertAll c prs m)
      = c * dotSum I pw env prs + dotSum I pw env m
  | [], m => by simp [wmapInsertAll, dotSum]
  | (w, a) :: rest, m => by
    unfold wmapInsertAll
    rw [wmapInsertAll_sum c rest _, wmapInsert_sum, Expr.eval_qmul]
    simp [dotSum]
    ring

theorem dotSum_scaleMap (z : Expr) (ts : List (Expr × Expr)) :
    dotSum I pw env (ts.map fun wb => (Expr.smul z wb.1, wb.2))
      = z.eval I pw env * dotSum I pw env ts := by
  induction ts with
  | nil => simp [dotSum]
  | cons hd tl ih =>
    simp only [List.map_cons, dotSum, List.sum_cons] at *
    rw [Expr.eval_smul, ih]
    ring

theorem dotSum_cross (bs : List (Expr × Expr)) :
    ∀ as : List (Expr × Expr),
      dotSum I pw env (as.flatMap fun wa => bs.map fun wb =>
        (Expr.smul wa.1 wb.1, Expr.smul wa.2 wb.2))
      = dotSum I pw env as * dotSum I pw env bs
  | [] => by simp [dotSum]
  | wa :: rest => by
    simp only [List.flatMap_cons, dotSum_append]
    rw [dotSum_cross bs rest]
    have hrow : dotSum I pw env (bs.map fun wb =>
        (Expr.smul wa.1 wb.1, Expr.smul wa.2 wb.2))
        = (wa.1.eval I pw env * wa.2.eval I pw env) * dotSum I pw env bs := by
      induction bs with
      | nil => simp [dotSum]
      | cons hd tl ih =>
        simp only [List.map_cons, dotSum, List.sum_cons] at *
        rw [Expr.eval_smul, Expr.eval_smul, ih]
        ring
    rw [hrow]
    simp [dotSum]
    ring

theorem eval_of_isZero {e : Expr} (h : e.isZero = true) : e.eval I pw env = 0 := by
  unfold Expr.isZero at h
  simp only [decide_eq_true_eq] at h
  subst h
  rfl

theorem simpleMultiplication_sem (a b : LF) :
    lfSem I pw env (simpleMultiplication a b) = lfSem I pw env a * lfSem I pw env b := by
  unfold simpleMultiplication lfSem
  simp only [dotSum_append]
  rw [dotSum_cross, Expr.eval_smul]
  by_cases hza : a.w0.isZero = true <;> by_cases hzb : b.w0.isZero = true
  · rw [if_pos hza, if_pos hzb]
    have h0a := eval_of_isZero I pw env hza
    have h0b := eval_of_isZero I pw env hzb
    simp only [dotSum, List.map_nil, List.sum_nil, h0a, h0b]
    ring
  · rw [if_pos hza, if_neg hzb, dotSum_scaleMap]
    have h0a := eval_of_isZero I pw env hza
    simp only [dotSum, List.map_nil, List.sum_nil, h0a]
    ring
  · rw [if_neg hza, if_pos hzb, dotSum_scaleMap]
    have h0b := eval_of_isZero I pw env hzb
    simp only [dotSum, List.map_nil, List.sum_nil, h0b]
    ring
  · rw [if_neg hza, if_neg hzb, dotSum_scaleMap, dotSum_scaleMap]
    ring

end RoundTrip


section VisitSem

variable (I : NPKind → List ℤ → ℤ) (pw : ℤ → ℤ → ℤ) (env : ℕ → ℤ)

theorem visitPow_sem (e exponent : Expr) (P : Finset ℕ) (r : LF)
    (h : visitPow e exponent P = .ok r) :
    lfSem I pw env r = e.eval I pw env := by
  unfold visitPow at h
  split_ifs at h with h1 h2 h3
  · cases h
    simp [lfSem, dotSum, Expr.eval]
  · cases h
    simp [lfSem, dotSum]

theorem visitNonPolynomialTerm_sem (e : Expr) (P : Finset ℕ) (r : LF)
    (h : visitNonPolynomialTerm e P = .ok r) :
    lfSem I pw env r = e.eval I pw env := by
  unfold visitNonPolynomialTerm at h
  split_ifs at h with h1 h2
  · cases h
    simp [lfSem, dotSum, Expr.eval]
  · cases h
    simp [lfSem, dotSum]

mutual
theorem Visit_sem : ∀ (e : Expr) (P : Finset ℕ) (r : LF), Visit e P = .ok r →
    lfSem I pw env r = e.eval I pw env
  | .const c, P, r, h => by
    cases h
    simp [lfSem, dotSum, Expr.eval]
  | .var v, P, r, h => by
    unfold Visit at h
    split_ifs at h <;> cases h <;> simp [lfSem, dotSum, Expr.eval]
  | .add c ts, P, r, h => by
    unfold Visit at h
    cases hv : VisitTerms ts P [] (.const c) with
    | error err => rw [hv, exceptBind_error] at h; exact Except.noConfusion h
    | ok out =>
      rw [hv, exceptBind_ok] at h
      cases h
      have hts := VisitTerms_sem ts P [] (.const c) out hv
      simp only [lfSem, dotSum]
      simp only [dotSum, List.map_nil, List.sum_nil] at hts
      rw [hts]
      simp [Expr.eval]
  | .mul c fs, P, r, h => by
    unfold Visit at h
    have := VisitFactors_sem fs P ⟨[], .const c⟩ r h
    rw [this]
    simp [lfSem, dotSum, Expr.eval]
  | .pow b ex, P, r, h => visitPow_sem I pw env _ ex P r h
  | .np k as, P, r, h => visitNonPolynomialTerm_sem I pw env _ P r h

theorem VisitTerms_sem : ∀ (ts : ETerms) (P : Finset ℕ) (m : List (Expr × Expr))
    (w0 : Expr) (out : List (Expr × Expr) × Expr), VisitTerms ts P m w0 = .ok out →
    dotSum I pw env out.1 + out.2.eval I pw env
      = dotSum I pw env m + w0.eval I pw env + ts.evalSum I pw env
  | .nil, P, m, w0, out, h => by
    cases h
    simp [ETerms.evalSum]
  | .cons e c r, P, m, w0, out, h => by
    unfold VisitTerms at h
    cases hv : Visit e P with
    | error err => rw [hv, exceptBind_error] at h; exact Except.noConfusion h
    | ok f =>
      rw [hv, exceptBind_ok] at h
      have hrec := VisitTerms_sem r P (wmapInsertAll c f.terms m)
        (Expr.sadd w0 (Expr.qmul c f.w0)) out h
      have hf := Visit_sem e P f hv
      rw [wmapInsertAll_sum, Expr.eval_sadd, Expr.eval_qmul] at hrec
      rw [hrec]
      simp only [ETerms.evalSum]
      simp only [lfSem] at hf
      have : c * dotSum I pw env f.terms + c * Expr.eval I pw env f.w0
          = c * Expr.eval I pw env e := by
        rw [← hf]; ring
      linarith [this]

theorem VisitFactors_sem : ∀ (fs : EFactors) (P : Finset ℕ) (f : LF) (out : LF),
    VisitFactors fs P f = .ok out →
    lfSem I pw env out = lfSem I pw env f * fs.evalProd I pw env
  | .nil, P, f, out, h => by
    cases h
    simp [EFactors.evalProd]
  | .cons b ex r, P, f, out, h => by
    unfold VisitFactors at h
    by_cases hone : ex.isOne = true
    · simp only [hone, if_true] at h
      cases hv : Visit b P with
      | error err => rw [hv, exceptBind_error] at h; exact Except.noConfusion h
      | ok g =>
        rw [hv, exceptBind_ok] at h
        have hrec := VisitFactors_sem r P (simpleMultiplication f g) out h
        have hg := Visit_sem b P g hv
        have hex : ex = Expr.const 1 := by
          unfold Expr.isOne at hone
          simpa using hone
        rw [hrec, simpleMultiplication_sem, hg]
        simp only [EFactors.evalProd]
        rw [if_pos hex]
        ring
    · simp only [hone, if_false, Bool.false_eq_true] at h
      cases hv : visitPow (.pow b ex) ex P with
      | error err => rw [hv, exceptBind_error] at h; exact Except.noConfusion h
      | ok g =>
        rw [hv, exceptBind_ok] at h
        have hrec := VisitFactors_sem r P (simpleMultiplication f g) out h
        have hg := visitPow_sem I pw env (.pow b ex) ex P g hv
        have hex : ex ≠ Expr.const 1 := by
          unfold Expr.isOne at hone
          simpa using hone
        rw [hrec, simpleMultiplication_sem, hg]
        simp only [EFactors.evalProd]
        rw [if_neg hex,
          show Expr.eval I pw env (Expr.pow b ex)
            = pw (b.eval I pw env) (ex.eval I pw env) from rfl]
        ring
end

end VisitSem


theorem listGetD_set_self : ∀ (l : List Expr) (i : ℕ) (x d : Expr), i < l.length →
    ((l.set i x).getD i d) = x
  | [], i, x, d, h => by simp at h
  | a :: tl, 0, x, d, _ => rfl
  | a :: tl, i + 1, x, d, h =>
    listGetD_set_self tl i x d (by simpa using h)

theorem listGetD_set_ne : ∀ (l : List Expr) (i j : ℕ) (x d : Expr), j ≠ i →
    ((l.set i x).getD j d) = l.getD j d
  | [], _, _, _, _, _ => rfl
  | a :: tl, 0, 0, x, d, h => absurd rfl h
  | a :: tl, 0, j + 1, x, d, _ => rfl
  | a :: tl, i + 1, 0, x, d, _ => rfl
  | a :: tl, i + 1, j + 1, x, d, h =>
    listGetD_set_ne tl i j x d (fun he => h (by omega))

theorem listGetD_replicate : ∀ (k j : ℕ) (d : Expr), ((List.replicate k d).getD j d) = d
  | 0, j, d => by cases j <;> rfl
  | k + 1, 0, d => rfl
  | k + 1, j + 1, d => listGetD_replicate k j d

theorem colAdd_getD_self (i : ℕ) (w : Expr) (col : List Expr) (h : i < col.length) :
    (colAdd i w col).getD i (.const 0) = Expr.sadd (col.getD i (.const 0)) w :=
  listGetD_set_self col i _ _ h

theorem colAdd_getD_ne (i j : ℕ) (w : Expr) (col : List Expr) (h : j ≠ i) :
    (colAdd i w col).getD j (.const 0) = col.getD j (.const 0) :=
  listGetD_set_ne col i j _ _ h

theorem colAdd_length (i : ℕ) (w : Expr) (col : List Expr) :
    (colAdd i w col).length = col.length := by
  simp [colAdd]

section DriverSem

variable (I : NPKind → List ℤ → ℤ) (pw : ℤ → ℤ → ℤ) (env : ℕ → ℤ)

/-- The row-`i` contribution of the driver's α-keyed map:
`Σ over columns of (column entry i)·(α key)`. -/
def amapRowSum (i : ℕ) (m : List (Expr × List Expr)) : ℤ :=
  (m.map fun kv => (kv.2.getD i (.const 0)).eval I pw env * kv.1.eval I pw env).sum

theorem amapInsert_lengths (n i : ℕ) (k w : Expr) :
    ∀ m : List (Expr × List Expr), (∀ kv ∈ m, kv.2.length = n) →
      ∀ kv ∈ amapInsert n i k w m, kv.2.length = n
  | [], _, kv, hkv => by
    simp only [amapInsert, List.mem_singleton] at hkv
    subst hkv
    simp [colAdd_length]
  | (k1, c1) :: rest, hlen, kv, hkv => by
    unfold amapInsert at hkv
    by_cases he : k = k1
    · simp only [he, if_true, List.mem_cons] at hkv
      rcases hkv with hh | ht
      · subst hh
        simp [colAdd_length, hlen (k1, c1) (by simp)]
      · exact hlen kv (by simp [ht])
    · simp only [he, if_false] at hkv
      by_cases hlt : k.enc < k1.enc
      · simp only [hlt, if_true, List.mem_cons] at hkv
        rcases hkv with hh | hkv2
        · subst hh
          simp [colAdd_length]
        · rcases hkv2 with hh2 | ht2
          · subst hh2
            exact hlen (k1, c1) (by simp)
          · exact hlen kv (by simp [ht2])
      · simp only [hlt, if_false, List.mem_cons] at hkv
        rcases hkv with hh | ht
        · subst hh
          exact hlen (k1, c1) (by simp)
        · exact amapInsert_lengths n i k w rest
            (fun q hq => hlen q (by simp [hq])) kv ht

theorem amapInsert_rowSum_ne (n i j : ℕ) (k w : Expr) (hji : j ≠ i) :
    ∀ m : List (Expr × List Expr),
      amapRowSum I pw env j (amapInsert n i k w m) = amapRowSum I pw env j m
  | [] => by
    simp only [amapInsert, amapRowSum, List.map_cons, List.map_nil, List.sum_cons,
      List.sum_nil]
    rw [colAdd_getD_ne i j w _ hji, listGetD_replicate]
    simp [Expr.eval]
  | (k1, c1) :: rest => by
    unfold amapInsert
    by_cases he : k = k1
    · simp only [he, if_true, amapRowSum, List.map_cons, List.sum_cons]
      rw [colAdd_getD_ne i j w _ hji]
    · simp only [he, if_false]
      by_cases hlt : k.enc < k1.enc
      · simp only [hlt, if_true, amapRowSum, List.map_cons, List.sum_cons]
        rw [colAdd_getD_ne i j w _ hji, listGetD_replicate]
        simp [Expr.eval]
      · simp only [hlt, if_false]
        have := amapInsert_rowSum_ne n i j k w hji rest
        simp only [amapRowSum, List.map_cons, List.sum_cons] at *
        rw [this]

theorem amapInsert_rowSum_self (n i : ℕ) (k w : Expr) (hin : i < n) :
    ∀ m : List (Expr × List Expr), (∀ kv ∈ m, kv.2.length = n) →
      amapRowSum I pw env i (amapInsert n i k w m)
        = w.eval I pw env * k.eval I pw env + amapRowSum I pw env i m
  | [], _ => by
    simp only [amapInsert, amapRowSum, List.map_cons, List.map_nil, List.sum_cons,
      List.sum_nil]
    rw [colAdd_getD_self i w _ (by simpa using hin), listGetD_replicate, Expr.eval_sadd]
    simp [Expr.eval]
  | (k1, c1) :: rest, hlen => by
    unfold amapInsert
    by_cases he : k = k1
    · subst he
      simp only [if_true, amapRowSum, List.map_cons, List.sum_cons]
      rw [colAdd_getD_self i w c1 (by rw [hlen (k, c1) (by simp)]; exact hin),
        Expr.eval_sadd]
      ring
    · simp only [he, if_false]
      by_cases hlt : k.enc < k1.enc
      · simp only [hlt, if_true, amapRowSum, List.map_cons, List.sum_cons]
        rw [colAdd_getD_self i w _ (by simpa using hin), listGetD_replicate,
          Expr.eval_sadd]
        simp only [Expr.eval, zero_add]
      · simp only [hlt, if_false]
        have := amapInsert_rowSum_self n i k w hin rest
          (fun q hq => hlen q (by simp [hq]))
        simp only [amapRowSum, List.map_cons, List.sum_cons] at *
        rw [this]
        ring

theorem amapInsertRow_lengths (n i : ℕ) :
    ∀ (prs : List (Expr × Expr)) (m : List (Expr × List Expr)),
      (∀ kv ∈ m, kv.2.length = n) →
      ∀ kv ∈ amapInsertRow n i prs m, kv.2.length = n
  | [], m, hlen, kv, hkv => hlen kv hkv
  | (w, a) :: rest, m, hlen, kv, hkv =>
    amapInsertRow_lengths n i rest _ (amapInsert_lengths n i a w m hlen) kv hkv

theorem amapInsertRow_rowSum_ne (n i j : ℕ) (hji : j ≠ i) :
    ∀ (prs : List (Expr × Expr)) (m : List (Expr × List Expr)),
      amapRowSum I pw env j (amapInsertRow n i prs m) = amapRowSum I pw env j m
  | [], m => rfl
  | (w, a) :: rest, m => by
    unfold amapInsertRow
    rw [amapInsertRow_rowSum_ne n i j hji rest _, amapInsert_rowSum_ne I pw env n i j a w hji m]

theorem amapInsertRow_rowSum_self (n i : ℕ) (hin : i < n) :
    ∀ (prs : List (Expr × Expr)) (m : List (Expr × List Expr)),
      (∀ kv ∈ m, kv.2.length = n) →
      amapRowSum I pw env i (amapInsertRow n i prs m)
        = amapRowSum I pw env i m + dotSum I pw env prs
  | [], m, _ => by simp [amapInsertRow, dotSum]
  | (w, a) :: rest, m, hlen => by
    unfold amapInsertRow
    rw [amapInsertRow_rowSum_self n i hin rest _ (amapInsert_lengths n i a w m hlen),
      amapInsert_rowSum_self I pw env n i a w hin m hlen]
    simp only [dotSum, List.map_cons, List.sum_cons]
    ring

end DriverSem


theorem listGetD_append_left : ∀ (xs ys : List Expr) (j : ℕ) (d : Expr), j < xs.length →
    ((xs ++ ys).getD j d) = xs.getD j d
  | [], _, j, _, h => by simp at h
  | x :: xs, ys, 0, d, _ => rfl
  | x :: xs, ys, j + 1, d, h => listGetD_append_left xs ys j d (by simpa using h)

theorem listGetD_append_len : ∀ (xs : List Expr) (y d : Expr),
    ((xs ++ [y]).getD xs.length d) = y
  | [], y, d => rfl
  | x :: xs, y, d => listGetD_append_len xs y d

section DriverLoopSem

variable (I : NPKind → List ℤ → ℤ) (pw : ℤ → ℤ → ℤ) (env : ℕ → ℤ)

/-- The driver's row loop: already-recorded rows keep their remainder and
row sum, and each processed row's map contribution plus its recorded
remainder equals the row expression's value. -/
theorem driverLoop_sem (n : ℕ) (P : Finset ℕ) :
    ∀ (es : List Expr) (i : ℕ) (m : List (Expr × List Expr)) (w0s : List Expr)
      (out : List (Expr × List Expr) × List Expr),
      w0s.length = i → i + es.length ≤ n → (∀ kv ∈ m, kv.2.length = n) →
      driverLoop n P es i m w0s = .ok out →
      out.2.length = i + es.length ∧
      (∀ j, j < i → out.2.getD j (.const 0) = w0s.getD j (.const 0)) ∧
      (∀ j, j < i → amapRowSum I pw env j out.1 = amapRowSum I pw env j m) ∧
      (∀ k, ∀ hk : k < es.length,
        amapRowSum I pw env (i + k) out.1
            + ((out.2.getD (i + k) (.const 0)).eval I pw env)
          = amapRowSum I pw env (i + k) m + (es.get ⟨k, hk⟩).eval I pw env)
  | [], i, m, w0s, out, hw, _, _, h => by
    unfold driverLoop at h
    cases h
    exact ⟨by simpa using hw, fun j _ => rfl, fun j _ => rfl, fun k hk => by simp at hk⟩
  | e :: rest, i, m, w0s, out, hw, hn, hlen, h => by
    unfold driverLoop at h
    cases hv : Decompose e P with
    | error err => rw [hv, exceptBind_error] at h; exact Except.noConfusion h
    | ok f =>
      rw [hv, exceptBind_ok] at h
      have hw2 : (w0s ++ [f.w0]).length = i + 1 := by simp [hw]
      have hn2 : (i + 1) + rest.length ≤ n := by
        simp only [List.length_cons] at hn
        omega
      have hlen2 := amapInsertRow_lengths n i f.terms m hlen
      obtain ⟨o1, o2, o3, o4⟩ := driverLoop_sem n P rest (i + 1) _ _ out hw2 hn2 hlen2 h
      have hin : i < n := by
        simp only [List.length_cons] at hn
        omega
      refine ⟨?_, ?_, ?_, ?_⟩
      · rw [o1]
        simp only [List.length_cons]
        omega
      · intro j hj
        rw [o2 j (by omega), ← hw] at *
        exact listGetD_append_left w0s [f.w0] j _ (by omega)
      · intro j hj
        rw [o3 j (by omega), amapInsertRow_rowSum_ne I pw env n i j (by omega) f.terms m]
      · intro k
        cases k with
        | zero =>
          intro hk
          have h4 := o3 i (by omega)
          have h5 := o2 i (by omega)
          have hgd : (w0s ++ [f.w0]).getD i (.const 0) = f.w0 := by
            rw [← hw]
            exact listGetD_append_len w0s f.w0 _
          rw [hgd] at h5
          simp only [Nat.add_zero, List.get]
          rw [h4, h5,
            amapInsertRow_rowSum_self I pw env n i hin f.terms m hlen]
          have hsem := Visit_sem I pw env e.Expand P f hv
          rw [Expr.eval_Expand] at hsem
          simp only [lfSem] at hsem
          rw [← hsem]
          ring
        | succ k2 =>
          intro hk
          have hkr : k2 < rest.length := by simpa using hk
          have h4 := o4 k2 hkr
          have heq : (i + 1) + k2 = i + (k2 + 1) := by omega
          rw [heq] at h4
          rw [amapInsertRow_rowSum_ne I pw env n i (i + (k2 + 1)) (by omega)
            f.terms m] at h4
          rw [h4]
          rfl

end DriverLoopSem


theorem map_range_getD (g : ℕ → List Expr) (n k : ℕ) (h : k < n) :
    (((List.range n).map g).getD k []) = g k := by
  rw [List.getD_eq_getElem?_getD, List.getElem?_map, List.getElem?_range h]
  rfl

/-- The row-wise round-trip identity for a driver result: under every
interpretation of the opaque operators, every power semantics and every
variable assignment, each row of `f` evaluates to the dot product of its
`W` row with `α` plus its `w0` remainder. -/
def RoundTripRows (I : NPKind → List ℤ → ℤ) (pw : ℤ → ℤ → ℤ) (env : ℕ → ℤ)
    (f : List Expr) (W : List (List Expr)) (alpha w0 : List Expr) : Prop :=
  ∀ k, ∀ hk : k < f.length,
    (f.get ⟨k, hk⟩).eval I pw env
      = (((W.getD k []).zip alpha).map fun wa =>
          wa.1.eval I pw env * wa.2.eval I pw env).sum
        + (w0.getD k (.const 0)).eval I pw env

/-- C1: whenever `DecomposeLumpedParameters` succeeds on `(f, P)`, the
returned triple `(W, α, w0)` satisfies the round-trip identity
`fᵢ = Σⱼ Wᵢⱼ·αⱼ + w0ᵢ` row-wise, under every interpretation of the opaque
operators and every variable assignment (so in particular after substituting
back and expanding, `Σⱼ Wᵢⱼ·αⱼ + w0ᵢ` equals the expansion of `fᵢ`). -/
theorem DecomposeLumpedParameters_roundtrip
    (I : NPKind → List ℤ → ℤ) (pw : ℤ → ℤ → ℤ) (env : ℕ → ℤ)
    (f : List Expr) (P : Finset ℕ) (W : List (List Expr)) (alpha w0 : List Expr)
    (h : DecomposeLumpedParameters f P = .ok (W, alpha, w0)) :
    RoundTripRows I pw env f W alpha w0 := by
  unfold DecomposeLumpedParameters at h
  cases hv : driverLoop f.length P f 0 [] [] with
  | error err => rw [hv, exceptBind_error] at h; exact Except.noConfusion h
  | ok r =>
    rw [hv, exceptBind_ok] at h
    obtain ⟨o1, o2, o3, o4⟩ := driverLoop_sem I pw env f.length P f 0 [] [] r
      rfl (by omega) (by simp) hv
    cases h
    intro k hk
    have h4 := o4 k hk
    simp only [Nat.zero_add] at h4
    have hzero : amapRowSum I pw env k ([] : List (Expr × List Expr)) = 0 := rfl
    rw [hzero, zero_add] at h4
    have hW : (((List.range f.length).map fun i =>
          r.1.map fun kv => kv.2.getD i (Expr.const 0)).getD k [])
        = r.1.map fun kv => kv.2.getD k (Expr.const 0) :=
      map_range_getD _ _ _ hk
    rw [hW, List.zip_map', List.map_map]
    rw [← h4]
    rfl

/-- Closed witness for C1: the round-trip identity holds at the concrete
result of decomposing `[x₀·x₂, x₁·x₂]` against the parameter set `{x₂}`. -/
theorem DecomposeLumpedParameters_roundtrip_witness :
    RoundTripRows (fun _ _ => 0) (fun a _ => a) (fun v => (v : ℤ))
      [sharedColRow1, sharedColRow2] [[.var 0], [.var 1]] [.var 2]
      [.const 0, .const 0] :=
  DecomposeLumpedParameters_roundtrip (fun _ _ => 0) (fun a _ => a)
    (fun v => (v : ℤ)) [sharedColRow1, sharedColRow2] {2}
    [[.var 0], [.var 1]] [.var 2] [.const 0, .const 0] (by decide)


section L2Norm

/-- Modelled from the spec: the external numeric collaborators of
`DecomposeL2NormExpression` — the polynomial converter (`is_polynomial` +
`Polynomial{arg}`, `none` when the operand is not a polynomial), the PSD
factorizer `DecomposePSDmatrixIntoXtransposeTimesX` called with
"return empty if not psd" (`none` models the empty matrix), and the
least-squares solver `colPivHouseholderQr().solve`. -/
structure L2Oracle where
  toPoly : Expr → Option Poly
  psdFactor : (ℕ → ℕ → ℚ) → ℕ → ℚ → Option ((ℕ → ℕ → ℚ) × ℕ)
  lsq : (ℕ → ℕ → ℚ) → ℕ → (ℕ → ℚ) → (ℕ → ℚ)

/-- Errors raised by `DecomposeL2NormExpression`: the two
`DRAKE_THROW_UNLESS` tolerance preconditions, plus any propagated failure of
the inner quadratic decomposition. -/
inductive L2Err : Type
  | negativePsdTol : L2Err
  | negativeCoefficientTol : L2Err
  | inner : QPErr → L2Err
  deriving DecidableEq, Repr

/-- Embedded from the `e.get_kind() != ExpressionKind::Sqrt` test and
`get_argument(e)`: the operand of a square-root node, when `e` is one. -/
def sqrtArg : Expr → Option Expr
  | .np .sqrt (.cons arg .nil) => some arg
  | _ => none

/-- `(·).array().abs().maxCoeff()` over the first `n` entries of a vector. -/
def maxAbsCoeff (n : ℕ) (v : ℕ → ℚ) : ℚ :=
  (List.range n).foldl (fun acc j => max acc |v j|) 0

/-- Entry `j` of the least-squares residual `Aᵀb − 0.5·r`. -/
def l2Residual (A : ℕ → ℕ → ℚ) (rows : ℕ) (b : ℕ → ℚ) (r : ℕ → ℚ) (j : ℕ) : ℚ :=
  ((List.range rows).map fun i => A i j * b i).sum - (1 / 2) * r j

/-- The solver call `solve(0.5 * r)` against `Aᵀ`. -/
def l2Sol (O : L2Oracle) (Arows : (ℕ → ℕ → ℚ) × ℕ) (r : ℕ → ℚ) : ℕ → ℚ :=
  O.lsq Arows.1 Arows.2 fun j => (1 / 2) * r j

/-- Embedded from `DecomposeL2NormExpression`: check the two tolerance
preconditions, then the structural gates (square-root head, polynomial
operand, total degree exactly 2), decompose the quadratic polynomial over
the variable indexing of `e`, halve `Q`, PSD-factorize, least-squares solve
for `b`, and accept only when both residual checks pass; every failed gate
returns `false` with the outputs produced so far. -/
def DecomposeL2NormExpression (O : L2Oracle) (e : Expr)
    (psd_tol coefficient_tol : ℚ) :
    Except L2Err (Bool × ((ℕ → ℕ → ℚ) × ℕ) × (ℕ → ℚ) × List ℕ) :=
  if psd_tol < 0 then .error .negativePsdTol
  else if coefficient_tol < 0 then .error .negativeCoefficientTol
  else
    match sqrtArg e with
    | none => .ok (false, ((fun _ _ => 0), 0), (fun _ => 0), [])
    | some arg =>
      match O.toPoly arg with
      | none => .ok (false, ((fun _ _ => 0), 0), (fun _ => 0), [])
      | some poly =>
        if poly.totalDegree ≠ 2 then
          .ok (false, ((fun _ _ => 0), 0), (fun _ => 0), [])
        else
          match DecomposeQuadraticPolynomial poly
              (ExtractVariablesFromExpression e).2 with
          | .error qe => .error (.inner qe)
          | .ok st =>
            match O.psdFactor (fun a b => (1 / 2) * st.1 a b)
                (ExtractVariablesFromExpression e).1.length psd_tol with
            | none =>
              .ok (false, ((fun _ _ => 0), 0), (fun _ => 0),
                (ExtractVariablesFromExpression e).1)
            | some Arows =>
              if maxAbsCoeff (ExtractVariablesFromExpression e).1.length
                  (l2Residual Arows.1 Arows.2 (l2Sol O Arows st.2.1) st.2.1)
                  > coefficient_tol then
                .ok (false, Arows, l2Sol O Arows st.2.1,
                  (ExtractVariablesFromExpression e).1)
              else if |st.2.2 - ((List.range Arows.2).map fun i =>
                  l2Sol O Arows st.2.1 i * l2Sol O Arows st.2.1 i).sum|
                  > coefficient_tol then
                .ok (false, Arows, l2Sol O Arows st.2.1,
                  (ExtractVariablesFromExpression e).1)
              else
                .ok (true, Arows, l2Sol O Arows st.2.1,
                  (ExtractVariablesFromExpression e).1)

theorem sqrtArg_some (e arg : Expr) (h : sqrtArg e = some arg) :
    e = .np .sqrt (.cons arg .nil) := by
  unfold sqrtArg at h
  split at h
  · cases h
    rfl
  · exact Option.noConfusion h

theorem sqrtArg_varsL_sub {e arg : Expr} (h : sqrtArg e = some arg) :
    ∀ v, v ∈ arg.varsL → v ∈ e.varsL := by
  intro v hv
  rw [sqrtArg_some e arg h]
  show v ∈ EList.varsL (.cons arg .nil)
  simp [EList.varsL, mem_unionSortedDedup, hv]

theorem indexSeq_mem_bounds : ∀ (vs : List ℕ) (s : ℕ) (pr : ℕ × ℕ),
    pr ∈ indexSeq vs s → s ≤ pr.2 ∧ pr.2 < s + vs.length
  | [], s, pr, h => by simp [indexSeq] at h
  | v :: rest, s, pr, h => by
    simp only [indexSeq, List.mem_cons] at h
    rcases h with he | ht
    · subst he
      simp only [List.length_cons]
      omega
    · obtain ⟨h1, h2⟩ := indexSeq_mem_bounds rest (s + 1) pr ht
      simp only [List.length_cons]
      omega

theorem indexSeq_pos_inj : ∀ (vs : List ℕ) (s : ℕ) (p q : ℕ × ℕ),
    p ∈ indexSeq vs s → q ∈ indexSeq vs s → p.2 = q.2 → p.1 = q.1
  | [], _, p, _, hp, _, _ => by simp [indexSeq] at hp
  | v :: rest, s, p, q, hp, hq, he => by
    simp only [indexSeq, List.mem_cons] at hp hq
    rcases hp with hp1 | hp2 <;> rcases hq with hq1 | hq2
    · rw [hp1, hq1]
    · have hb := (indexSeq_mem_bounds rest (s + 1) q hq2).1
      have he2 : s = q.2 := by rw [← he, hp1]
      omega
    · have hb := (indexSeq_mem_bounds rest (s + 1) p hp2).1
      have he2 : p.2 = s := by rw [he, hq1]
      omega
    · exact indexSeq_pos_inj rest (s + 1) p q hp2 hq2 he

/-- The dense indexing built by the Variable Indexer is well formed for the
dimension given by its variable count. -/
theorem IdxWF_indexSeq (vs : List ℕ) : IdxWF vs.length (indexSeq vs 0) :=
  ⟨fun pr hpr => by
      have hb := (indexSeq_mem_bounds vs 0 pr hpr).2
      omega,
   fun p hp q hq he => indexSeq_pos_inj vs 0 p q hp hq he⟩

/-- The quadratic decomposition succeeds on a well-formed polynomial of
total degree at most 2 whose variables are all indexed. -/
theorem dqp_ok (n : ℕ) (poly : Poly) (idx : List (ℕ × ℕ))
    (hwf : PolyWF poly) (hdeg : poly.totalDegree ≤ 2)
    (hIdx : IdxWF n idx) (hvars : PolyVarsIndexed poly idx) :
    ∃ st, DecomposeQuadraticPolynomial poly idx = .ok st := by
  obtain ⟨st2, hfold, _, _⟩ := dqp_fold n idx hIdx poly
    (fun _ _ => 0, fun _ => 0, 0) hwf.1 (fun mc h => hwf.2.2 mc h)
    (fun mc h => le_trans (Poly.totalDegree_mem poly mc h) hdeg) hvars
    (fun a b => rfl)
  exact ⟨st2, by simpa [DecomposeQuadraticPolynomial] using hfold⟩

/-- A successful value raises no error, and the tolerance preconditions are
the only error sources once the value is in hand. -/
theorem okNoErr {γ : Type} (v : γ) {t1 t2 : ℚ} (h1 : ¬ t1 < 0) (h2 : ¬ t2 < 0) :
    ((∃ err, (Except.ok v : Except L2Err γ) = .error err) ↔ t1 < 0 ∨ t2 < 0) := by
  constructor
  · rintro ⟨err, he⟩
    exact Except.noConfusion he
  · rintro (h | h)
    · exact absurd h h1
    · exact absurd h h2

end L2Norm


/-- C8: under the contract that the external polynomial converter returns a
well-formed polynomial over the operand's variables,
`DecomposeL2NormExpression` raises an error if and only if `psd_tol` or
`coefficient_tol` is negative; with non-negative tolerances every structural
non-match (head not a square root, operand not a polynomial, total degree
not 2, failed PSD factorization, residual or constant-term mismatch beyond
tolerance) returns `false` rather than raising: a `true` first component
certifies that every gate passed. -/
theorem DecomposeL2NormExpression_spec (O : L2Oracle)
    (hO : ∀ a poly, O.toPoly a = some poly →
      PolyWF poly ∧ ∀ v ∈ poly.pvars, v ∈ a.varsL)
    (e : Expr) (psd_tol coefficient_tol : ℚ) :
    ((∃ err, DecomposeL2NormExpression O e psd_tol coefficient_tol = .error err)
        ↔ psd_tol < 0 ∨ coefficient_tol < 0) ∧
    ∀ res, DecomposeL2NormExpression O e psd_tol coefficient_tol = .ok res →
      res.1 = true →
      ∃ arg poly st Arows,
        sqrtArg e = some arg ∧ O.toPoly arg = some poly ∧
        poly.totalDegree = 2 ∧
        DecomposeQuadraticPolynomial poly (ExtractVariablesFromExpression e).2
          = .ok st ∧
        O.psdFactor (fun a b => (1 / 2) * st.1 a b)
          (ExtractVariablesFromExpression e).1.length psd_tol = some Arows ∧
        res.2.2.1 = l2Sol O Arows st.2.1 ∧
        maxAbsCoeff (ExtractVariablesFromExpression e).1.length
          (l2Residual Arows.1 Arows.2 (l2Sol O Arows st.2.1) st.2.1)
          ≤ coefficient_tol ∧
        |st.2.2 - ((List.range Arows.2).map fun i =>
            l2Sol O Arows st.2.1 i * l2Sol O Arows st.2.1 i).sum|
          ≤ coefficient_tol := by
  unfold DecomposeL2NormExpression
  by_cases hp : psd_tol < 0
  · rw [if_pos hp]
    refine ⟨⟨fun _ => Or.inl hp, fun _ => ⟨.negativePsdTol, rfl⟩⟩, ?_⟩
    intro res hres
    exact Except.noConfusion hres
  rw [if_neg hp]
  by_cases hc : coefficient_tol < 0
  · rw [if_pos hc]
    refine ⟨⟨fun _ => Or.inr hc, fun _ => ⟨.negativeCoefficientTol, rfl⟩⟩, ?_⟩
    intro res hres
    exact Except.noConfusion hres
  rw [if_neg hc]
  cases hs : sqrtArg e with
  | none =>
    simp only [hs]
    refine ⟨okNoErr _ hp hc, ?_⟩
    intro res hres htrue
    injection hres with hres2
    rw [← hres2] at htrue
    exact Bool.noConfusion htrue
  | some arg =>
    simp only [hs]
    cases ht : O.toPoly arg with
    | none =>
      simp only [ht]
      refine ⟨okNoErr _ hp hc, ?_⟩
      intro res hres htrue
      injection hres with hres2
      rw [← hres2] at htrue
      exact Bool.noConfusion htrue
    | some poly =>
      simp only [ht]
      by_cases hd : poly.totalDegree ≠ 2
      · rw [if_pos hd]
        refine ⟨okNoErr _ hp hc, ?_⟩
        intro res hres htrue
        injection hres with hres2
        rw [← hres2] at htrue
        exact Bool.noConfusion htrue
      · rw [if_neg hd]
        have hd2 : poly.totalDegree = 2 := not_not.mp hd
        obtain ⟨hwfp, hsub⟩ := hO arg poly ht
        have hvars : PolyVarsIndexed poly (ExtractVariablesFromExpression e).2 :=
          fun v hv => idxLookup_indexSeq_isSome v e.varsL 0
            (sqrtArg_varsL_sub hs v (hsub v hv))
        obtain ⟨st, hst⟩ := dqp_ok e.varsL.length poly
          (ExtractVariablesFromExpression e).2 hwfp (le_of_eq hd2)
          (IdxWF_indexSeq e.varsL) hvars
        simp only [hst]
        cases hA : O.psdFactor (fun a b => (1 / 2) * st.1 a b)
            (ExtractVariablesFromExpression e).1.length psd_tol with
        | none =>
          simp only [hA]
          refine ⟨okNoErr _ hp hc, ?_⟩
          intro res hres htrue
          injection hres with hres2
          rw [← hres2] at htrue
          exact Bool.noConfusion htrue
        | some Arows =>
          simp only [hA]
          by_cases h1 : maxAbsCoeff (ExtractVariablesFromExpression e).1.length
              (l2Residual Arows.1 Arows.2 (l2Sol O Arows st.2.1) st.2.1)
              > coefficient_tol
          · rw [if_pos h1]
            refine ⟨okNoErr _ hp hc, ?_⟩
            intro res hres htrue
            injection hres with hres2
            rw [← hres2] at htrue
            exact Bool.noConfusion htrue
          · rw [if_neg h1]
            by_cases h2 : |st.2.2 - ((List.range Arows.2).map fun i =>
                l2Sol O Arows st.2.1 i * l2Sol O Arows st.2.1 i).sum|
                > coefficient_tol
            · rw [if_pos h2]
              refine ⟨okNoErr _ hp hc, ?_⟩
              intro res hres htrue
              injection hres with hres2
              rw [← hres2] at htrue
              exact Bool.noConfusion htrue
            · rw [if_neg h2]
              refine ⟨okNoErr _ hp hc, ?_⟩
              intro res hres htrue
              injection hres with hres2
              rw [← hres2]
              exact ⟨arg, poly, st, Arows, rfl, ht, hd2, hst, hA, rfl,
                not_lt.mp h1, not_lt.mp h2⟩

/-- The degenerate external oracle: nothing converts to a polynomial, no
matrix PSD-factorizes, the solver returns its right-hand side. -/
def trivOracle : L2Oracle :=
  ⟨fun _ => none, fun _ _ _ => none, fun _ _ v => v⟩

/-- Closed witness for C8: a negative `coefficient_tol` makes the embedded
`DecomposeL2NormExpression` raise. -/
theorem DecomposeL2NormExpression_spec_witness :
    ∃ err, DecomposeL2NormExpression trivOracle (.var 0) 0 (-1) = .error err :=
  (DecomposeL2NormExpression_spec trivOracle
    (fun _ _ hp => Option.noConfusion hp) (.var 0) 0 (-1)).1.mpr
    (Or.inr (by decide))

end DrakeDecompose
